import Mathlib

/-
Verification of the ONNX constant-folding pass
(torch/csrc/jit/passes/onnx/constant_fold.cpp).

Shallow embedding conventions:
* Tensors are modelled as a dtype, a shape (list of extents) and a flat
  row-major data list of integer element values.  The numeric claims under
  study concern shapes, slicing arithmetic and dtype bookkeeping, so element
  values are kept as integers and `Tensor.to` changes only the dtype.
* Values of the IR are natural-number identifiers; a value's debug name is
  its identifier (debug names are unique per graph, so this loses nothing).
* `std::map` (both the name-keyed parameter dictionary and the pointer-keyed
  value-to-parameter map) is modelled as an association list kept sorted by
  key with insert-without-overwrite, matching std::map semantics.
* C++ functions that can throw (or run into undefined behaviour such as an
  out-of-range vector subscript) are modelled in the `Except String` monad:
  `.error` is a raised exception / abort, `.ok none` is the c10::nullopt
  "not foldable" sentinel, `.ok (some t)` is a folded tensor.
* `assert(...)` calls are compiled out in release builds (NDEBUG) and are
  modelled as no-ops; the source itself duplicates the one assert it relies
  on with an explicit guarded check.
* ATen tensor primitives (narrow, cat, unsqueeze, permute, element-type
  cast) and the Node/Block attribute accessors are external to this file;
  they are modelled from the specification's interface description (spec
  section 6), with partiality (`none`) exactly where the operation is
  mathematically undefined (the C++ library throws there).
-/

inductive ScalarType
  | float32
  | uint8
  | int8
  | int16
  | int32
  | int64
  | float64
deriving DecidableEq

structure Tensor where
  dtype : ScalarType
  sizes : List Nat
  data : List Int
deriving DecidableEq

inductive AttrValue
  | aInt (v : Int)
  | aInts (v : List Int)
  | aTensor (v : Tensor)
  | aOther
deriving DecidableEq

inductive AttrKind
  | iKind
  | isKind
  | tKind
  | otherKind
deriving DecidableEq

def attrKindOf : AttrValue → AttrKind
  | .aInt _ => .iKind
  | .aInts _ => .isKind
  | .aTensor _ => .tKind
  | .aOther => .otherKind

inductive NodeKind
  | onnxSlice
  | onnxConcat
  | onnxUnsqueeze
  | onnxTranspose
  | onnxCast
  | onnxConstant
  | primParam
  | other (name : String)
deriving DecidableEq

structure Node where
  id : Nat
  kind : NodeKind
  inputs : List Nat
  outputs : List Nat
  attrs : List (String × AttrValue)
deriving DecidableEq

def Node.findAttr? (n : Node) (s : String) : Option AttrValue :=
  (n.attrs.find? (fun p => decide (p.1 = s))).map (fun p => p.2)

/-- Node::hasAttributeS. -/
def Node.hasAttributeS (n : Node) (s : String) : Bool :=
  (n.findAttr? s).isSome

/-- Node::kindOf on an attribute name; modelled from the spec as a total
lookup (the wrapped IR accessor can only be reached here behind a
presence check). -/
def Node.kindOf? (n : Node) (s : String) : Option AttrKind :=
  (n.findAttr? s).map attrKindOf

/-- Node::i — integer attribute access; `none` models the AttributeError
the IR accessor raises when the attribute is missing or of another kind. -/
def Node.iAttr? (n : Node) (s : String) : Option Int :=
  match n.findAttr? s with
  | some (.aInt v) => some v
  | _ => none

/-- Node::is — integer-list attribute access. -/
def Node.isAttr? (n : Node) (s : String) : Option (List Int) :=
  match n.findAttr? s with
  | some (.aInts v) => some v
  | _ => none

/-- Node::t — tensor attribute access. -/
def Node.tAttr? (n : Node) (s : String) : Option Tensor :=
  match n.findAttr? s with
  | some (.aTensor v) => some v
  | _ => none

/-- Node::mustBeNone. Modelled from the spec: a literal-constant node is a
"none/empty sentinel" exactly when it carries no attributes. -/
def Node.mustBeNone (n : Node) : Bool :=
  n.attrs.isEmpty

structure Block where
  inputs : List Nat
  nodes : List Node
  retInputs : List Nat
  fresh : Nat
deriving DecidableEq

def natSum : List Nat → Nat
  | [] => 0
  | a :: r => a + natSum r

/-- Value::uses().size(): occurrences of the value among all node inputs of
the block plus the return node's inputs. -/
def Block.useCount (b : Block) (v : Nat) : Nat :=
  natSum (b.nodes.map (fun n => n.inputs.countP (fun x => decide (x = v)))) +
    b.retInputs.countP (fun x => decide (x = v))

/-- Value::hasUses(). -/
def Block.hasUses (b : Block) (v : Nat) : Bool :=
  decide (b.useCount v ≠ 0)

/-- The block's prim::Param node (b->param_node()), whose outputs are the
block's parameter inputs. -/
def Block.paramNodeOf (b : Block) : Node :=
  { id := 0, kind := .primParam, inputs := [], outputs := b.inputs, attrs := [] }

/-- Value::node(): the unique producer of a value — the param node for block
inputs, otherwise the node listing the value among its outputs.  In the C++
IR every value has a producer; `none` can only arise for an id never
introduced into the graph. -/
def Block.producer? (b : Block) (v : Nat) : Option Node :=
  if v ∈ b.inputs then some b.paramNodeOf
  else b.nodes.find? (fun n => decide (v ∈ n.outputs))

/-- Value::replaceAllUsesWith: rewrite every use (node inputs and return
inputs) of vOld into vNew. -/
def Block.replaceAllUsesWith (b : Block) (vOld vNew : Nat) : Block :=
  { b with
    nodes := b.nodes.map (fun n =>
      { n with inputs := n.inputs.map (fun v => if v = vOld then vNew else v) }),
    retInputs := b.retInputs.map (fun v => if v = vOld then vNew else v) }

/-- Node::removeAllInputs on the node with the given id. -/
def Block.removeAllInputsOf (b : Block) (nid : Nat) : Block :=
  { b with
    nodes := b.nodes.map (fun n => if n.id = nid then { n with inputs := [] } else n) }

/-- Node::destroy / destroyCurrent: unlink the node from the block. -/
def Block.destroyNodeById (b : Block) (nid : Nat) : Block :=
  { b with nodes := b.nodes.filter (fun n => decide (n.id ≠ nid)) }

/- ---------------------------------------------------------------------
   Sorted association-list maps mirroring std::map.
--------------------------------------------------------------------- -/

abbrev ParamMap := List (Nat × Tensor)

abbrev ValueToParamPairMap := List (Nat × (Nat × Tensor))

/-- std::map::find. -/
def mapFind? {α : Type} : List (Nat × α) → Nat → Option α
  | [], _ => none
  | (k0, v0) :: rest, k => if k = k0 then some v0 else mapFind? rest k

/-- std::map::insert / emplace: inserts in key order, never overwrites an
existing key. -/
def mapInsert {α : Type} : List (Nat × α) → Nat → α → List (Nat × α)
  | [], k, v => [(k, v)]
  | (k0, v0) :: rest, k, v =>
    if k < k0 then (k, v) :: (k0, v0) :: rest
    else if k = k0 then (k0, v0) :: rest
    else (k0, v0) :: mapInsert rest k v

/-- Keys strictly ascending: the canonical std::map representation. -/
def mapSorted {α : Type} : List (Nat × α) → Prop
  | [] => True
  | [_] => True
  | (k0, _) :: (k1, v1) :: rest => k0 < k1 ∧ mapSorted ((k1, v1) :: rest)

/- ---------------------------------------------------------------------
   Tensor library (modelled from the spec, section 6).
--------------------------------------------------------------------- -/

def prodList : List Nat → Nat
  | [] => 1
  | a :: r => a * prodList r

def Tensor.rank (t : Tensor) : Nat := t.sizes.length

def Tensor.numel (t : Tensor) : Nat := prodList t.sizes

/-- Row-major narrowing of flat data: the data is viewed as
outer × dimIn × inner; keep positions [start, start+len) along the middle
axis. -/
def narrowFlat : Nat → Nat → Nat → Nat → Nat → List Int → List Int
  | 0, _, _, _, _, _ => []
  | o + 1, dimIn, inner, start, len, data =>
    ((data.take (dimIn * inner)).drop (start * inner)).take (len * inner) ++
      narrowFlat o dimIn inner start len (data.drop (dimIn * inner))

/-- Modelled from the spec: at::narrow ("narrow-along-axis").  Defined when
the axis is in range and [start, start+length) lies inside the extent;
the library raises outside that domain. -/
def aten.narrow (t : Tensor) (axis start length : Int) : Option Tensor :=
  if axis < 0 ∨ (t.sizes.length : Int) ≤ axis then none
  else
    let a := axis.toNat
    let extent := t.sizes.getD a 0
    if start < 0 ∨ length < 0 ∨ (extent : Int) < start + length then none
    else
      let outer := prodList (t.sizes.take a)
      let inner := prodList (t.sizes.drop (a + 1))
      some { dtype := t.dtype,
             sizes := t.sizes.set a length.toNat,
             data := narrowFlat outer extent inner start.toNat length.toNat t.data }

/-- Row-major concatenation of flat data: parts are (blockSize, data) per
tensor; for each of the outer slices, take one block from every tensor. -/
def catFlat : Nat → List (Nat × List Int) → List Int
  | 0, _ => []
  | o + 1, parts =>
    (parts.map (fun p => p.2.take p.1)).flatten ++
      catFlat o (parts.map (fun p => (p.1, p.2.drop p.1)))

def nodupBool : List Nat → Bool
  | [] => true
  | a :: r => !(r.contains a) && nodupBool r

/-- Modelled from the spec: at::cat ("concatenate-along-axis").  Undefined
(the library raises) for an empty tensor list, zero-rank tensors, an
out-of-range axis, or tensors whose dtypes/shapes do not agree outside the
concatenation axis. -/
def aten.cat (ts : List Tensor) (dim : Int) : Option Tensor :=
  match ts with
  | [] => none
  | t0 :: rest =>
    let r := t0.rank
    if r = 0 then none
    else
      let d : Int := if dim < 0 then dim + r else dim
      if d < 0 ∨ (r : Int) ≤ d then none
      else
        let a := d.toNat
        if rest.all (fun t =>
            decide (t.dtype = t0.dtype) && decide (t.rank = r) &&
              decide (t.sizes.eraseIdx a = t0.sizes.eraseIdx a)) then
          let newDim := natSum ((t0 :: rest).map (fun t => t.sizes.getD a 0))
          let inner := prodList (t0.sizes.drop (a + 1))
          some { dtype := t0.dtype,
                 sizes := t0.sizes.set a newDim,
                 data := catFlat (prodList (t0.sizes.take a))
                   ((t0 :: rest).map (fun t => (t.sizes.getD a 0 * inner, t.data))) }
        else none

/-- Modelled from the spec: at::unsqueeze ("insert-unit-dimension-at-axis");
a negative axis counts from the new, larger rank. -/
def aten.unsqueeze (t : Tensor) (axis : Int) : Option Tensor :=
  let r := t.rank
  let a : Int := if axis < 0 then axis + r + 1 else axis
  if a < 0 ∨ (r : Int) < a then none
  else some { t with sizes := t.sizes.take a.toNat ++ 1 :: t.sizes.drop a.toNat }

/-- Row-major multi-index of a flat position. -/
def multiIndexOf : List Nat → Nat → List Nat
  | [], _ => []
  | _ :: rest, i => (i / prodList rest) :: multiIndexOf rest (i % prodList rest)

/-- Row-major flat position of a multi-index. -/
def flatIndexOf : List Nat → List Nat → Nat
  | _ :: srest, j :: jrest => j * prodList srest + flatIndexOf srest jrest
  | _, _ => 0

/-- Modelled from the spec: Tensor::permute ("permute-dimensions"); the
permutation must list every axis exactly once (negative entries count from
the rank). -/
def aten.permute (t : Tensor) (perm : List Int) : Option Tensor :=
  let r := t.rank
  if perm.length ≠ r then none
  else
    let wrapped := perm.map (fun p => if p < 0 then p + (r : Int) else p)
    if wrapped.all (fun p => decide (0 ≤ p) && decide (p < (r : Int))) then
      let pn : List Nat := wrapped.map Int.toNat
      if nodupBool pn then
        let newSizes := pn.map (fun k => t.sizes.getD k 0)
        some { dtype := t.dtype,
               sizes := newSizes,
               data := (List.range (prodList newSizes)).map (fun i =>
                 let mi := multiIndexOf newSizes i
                 let oldMi := (List.range r).map (fun k => mi.getD (pn.indexOf k) 0)
                 t.data.getD (flatIndexOf t.sizes oldMi) 0) }
      else none
    else none

/-- Modelled from the spec: Tensor::to ("element-type-cast").  Element
values are integers in this model and all listed kinds are numeric, so the
conversion changes only the dtype. -/
def Tensor.to (t : Tensor) (st : ScalarType) : Tensor :=
  { t with dtype := st }

/-- Tensor::accessor<int64_t, 1>: raises unless the tensor is rank-1 with
64-bit integer elements; reads are then plain positions into the data. -/
def accessorInt1 (t : Tensor) : Except String (List Int) :=
  if t.sizes.length ≠ 1 then .error "accessor: expected 1 dims"
  else if t.dtype ≠ ScalarType.int64 then .error "accessor: expected scalar type Long"
  else .ok t.data

/- ---------------------------------------------------------------------
   The pass itself, from src/torch/csrc/jit/passes/onnx/constant_fold.cpp.
--------------------------------------------------------------------- -/

/-- An int64_t value narrowed to the 32-bit int key type of
onnxTypeToScalarTypeMap: two's-complement wrap modulo 2^32 into
[-2^31, 2^31). -/
def int32Of (k : Int) : Int :=
  (k + 2 ^ 31) % 2 ^ 32 - 2 ^ 31

/-- onnxTypeToScalarTypeMap (constant_fold.cpp lines 20-34), as reached
through find and operator[] (lines 238-242): the unordered_map is keyed by
32-bit int while the node attribute is int64_t, so every lookup first
narrows the code to the key type. -/
def onnxTypeToScalarTypeMap (k : Int) : Option ScalarType :=
  if int32Of k = 1 then some .float32
  else if int32Of k = 2 then some .uint8
  else if int32Of k = 3 then some .int8
  else if int32Of k = 4 then some .int32
  else if int32Of k = 5 then some .int16
  else if int32Of k = 6 then some .int32
  else if int32Of k = 7 then some .int64
  else if int32Of k = 10 then some .float32
  else if int32Of k = 11 then some .float64
  else if int32Of k = 12 then some .int64
  else none

/-- buildValueToParamsMap (lines 36-47): associate every block input whose
debug name occurs in the parameter dictionary with its (name, tensor)
entry. -/
def buildValueToParamsMap (b : Block) (paramsDict : ParamMap) : ValueToParamPairMap :=
  b.inputs.foldl (fun m input =>
    match mapFind? paramsDict input with
    | some t => mapInsert m input (input, t)
    | none => m) []

/-- buildParamsMapFromValueToParamsMap (lines 49-56): clear the dictionary
and reinsert every (name, tensor) pair of the association. -/
def buildParamsMapFromValueToParamsMap (m : ValueToParamPairMap) : ParamMap :=
  m.foldl (fun d p => mapInsert d p.2.1 p.2.2) []

/-- eraseUnusedBlockInputs (lines 58-65): erase, scanning indices in
reverse, every block input without uses.  Erasing an input does not change
any use count, so the reverse-index loop is exactly a filter. -/
def eraseUnusedBlockInputs (b : Block) : Block :=
  { b with inputs := b.inputs.filter (fun v => b.hasUses v) }

/-- eraseUnusedValuesFromMap (lines 287-296): drop association entries whose
value no longer has uses. -/
def eraseUnusedValuesFromMap (b : Block) (m : ValueToParamPairMap) : ValueToParamPairMap :=
  m.filter (fun p => b.hasUses p.1)

/-- handleNegativeStartEndIndex (lines 67-79).  The C++ reads
tensorSizes[axis] through an unchecked IntArrayRef subscript, so an
out-of-range axis is undefined behaviour, modelled as an error. -/
def handleNegativeStartEndIndex (start end2 axis : Int) (tensorSizes : List Nat) :
    Except String (Int × Int) :=
  match (if 0 ≤ axis then tensorSizes.get? axis.toNat else none) with
  | none => .error "IntArrayRef subscript out of range"
  | some szN =>
    let sz : Int := szN
    let start2 := if start < 0 then sz + start else start
    let end3 := if end2 < 0 then sz + end2 else end2
    let end4 := if end3 > sz then sz else end3
    .ok (start2, end4)

/-- The shared per-axis narrowing loop of runTorchSlice_opset9 (lines
105-113) and runTorchSlice_opset10 (lines 183-191): step i narrows along
axes[i] using starts[i] and ends[i] (read by unchecked subscript: an
out-of-range read is an error). -/
def sliceAxesFrom (startsAttr endsAttr : List Int) :
    List Int → Nat → Tensor → Except String (Option Tensor)
  | [], _, t => .ok (some t)
  | axis :: restAxes, i, t =>
    match startsAttr.get? i, endsAttr.get? i with
    | some start, some end2 =>
      (match handleNegativeStartEndIndex start end2 axis t.sizes with
       | .error e => .error e
       | .ok (start2, end3) =>
         let length := end3 - start2
         if length < 0 ∨ start2 > (t.sizes.getD axis.toNat 0 : Int) - length then .ok none
         else
           match aten.narrow t axis start2 length with
           | none => .error "narrow: start and length out of range"
           | some t2 => sliceAxesFrom startsAttr endsAttr restAxes (i + 1) t2)
    | _, _ => .error "vector subscript out of range"

def rangeInts (n : Nat) : List Int :=
  (List.range n).map Int.ofNat

/-- runTorchSlice_opset9 (lines 81-115). -/
def runTorchSlice_opset9 (node : Node) (inputTensorValues : List Tensor) :
    Except String (Option Tensor) :=
  if inputTensorValues.length ≠ 1 then .ok none
  else if !(node.hasAttributeS "starts" && node.hasAttributeS "ends") then .ok none
  else
    match node.isAttr? "starts", node.isAttr? "ends" with
    | some startsAttr, some endsAttr =>
      if startsAttr.length ≠ endsAttr.length then .ok none
      else
        (match (if node.hasAttributeS "axes" then node.isAttr? "axes"
                else some (rangeInts startsAttr.length)) with
         | none => .error "expected ints attribute axes"
         | some axesAttr =>
           match inputTensorValues.get? 0 with
           | none => .error "vector subscript out of range"
           | some t0 => sliceAxesFrom startsAttr endsAttr axesAttr 0 t0)
    | _, _ => .error "expected ints attribute"

/-- The axes vector of runTorchSlice_opset10 (lines 134-156): an explicit
axes input is validated (rank 1, matching length) and its elements are
copied out via a reserve-plus-subscript loop (modelled by its effect: the
first length-many accessor reads); an omitted axes input yields one zero
per start/end pair. -/
def axesOf_opset10 (inputTensorValues : List Tensor) (n : Nat) :
    Except String (Option (List Int)) :=
  if inputTensorValues.length > 3 then
    match inputTensorValues.get? 3 with
    | none => .error "vector subscript out of range"
    | some axes3 =>
      if axes3.sizes.length ≠ 1 then .ok none
      else if axes3.sizes.getD 0 0 ≠ n then .ok none
      else
        match accessorInt1 axes3 with
        | .error e => .error e
        | .ok l =>
          if l.length < axes3.sizes.getD 0 0 then .error "accessor read out of range"
          else .ok (some (l.take (axes3.sizes.getD 0 0)))
  else .ok (some (List.replicate n 0))

/-- The sequential steps scan of runTorchSlice_opset10 (lines 170-178):
walk the first n accessor reads; the first entry different from 1 stops the
scan with false. -/
def scanStepsAux (steps : List Int) : Nat → Nat → Except String Bool
  | _, 0 => .ok true
  | i, k + 1 =>
    match steps.get? i with
    | none => .error "accessor read out of range"
    | some v => if v ≠ 1 then .ok false else scanStepsAux steps (i + 1) k

/-- The steps validation of runTorchSlice_opset10 (lines 157-179): with a
fifth input present, it must be rank 1 of matching length; any entry other
than 1 makes the node not-foldable. -/
def stepsCheck_opset10 (inputTensorValues : List Tensor) (n : Nat) :
    Except String (Option Unit) :=
  if inputTensorValues.length > 4 then
    match inputTensorValues.get? 4 with
    | none => .error "vector subscript out of range"
    | some steps4 =>
      if steps4.sizes.length ≠ 1 then .ok none
      else if steps4.sizes.getD 0 0 ≠ n then .ok none
      else
        match accessorInt1 steps4 with
        | .error e => .error e
        | .ok l =>
          match scanStepsAux l 0 (steps4.sizes.getD 0 0) with
          | .error e => .error e
          | .ok true => .ok (some ())
          | .ok false => .ok none
  else .ok (some ())

/-- runTorchSlice_opset10 (lines 117-193). -/
def runTorchSlice_opset10 (node : Node) (inputTensorValues : List Tensor) :
    Except String (Option Tensor) :=
  if inputTensorValues.length < 3 ∨ inputTensorValues.length > 5 then .ok none
  else
    match inputTensorValues.get? 0, inputTensorValues.get? 1, inputTensorValues.get? 2 with
    | some data0, some starts1, some ends2 =>
      if starts1.sizes.length ≠ 1 ∨ ends2.sizes.length ≠ 1 then .ok none
      else if starts1.sizes.getD 0 0 ≠ ends2.sizes.getD 0 0 then .ok none
      else
        let n := starts1.sizes.getD 0 0
        (match axesOf_opset10 inputTensorValues n with
         | .error e => .error e
         | .ok none => .ok none
         | .ok (some axes) =>
           match stepsCheck_opset10 inputTensorValues n with
           | .error e => .error e
           | .ok none => .ok none
           | .ok (some _) =>
             match accessorInt1 starts1 with
             | .error e => .error e
             | .ok startsA =>
               match accessorInt1 ends2 with
               | .error e => .error e
               | .ok endsA => sliceAxesFrom startsA endsA axes 0 data0)
    | _, _, _ => .error "vector subscript out of range"

def unsqueezeLoop (t : Tensor) : List Int → Except String (Option Tensor)
  | [] => .ok (some t)
  | a :: rest =>
    match aten.unsqueeze t a with
    | none => .error "unsqueeze: dimension out of range"
    | some t2 => unsqueezeLoop t2 rest

/-- runTorchBackendForOnnx (lines 195-249). -/
def runTorchBackendForOnnx (node : Node) (inputTensorValues : List Tensor)
    (opset_version : Int) : Except String (Option Tensor) :=
  if node.kind = NodeKind.onnxSlice then
    if opset_version = 9 then runTorchSlice_opset9 node inputTensorValues
    else if opset_version = 10 then runTorchSlice_opset10 node inputTensorValues
    else .ok none
  else if node.kind = NodeKind.onnxConcat then
    if !node.hasAttributeS "axis" then .ok none
    else
      match node.iAttr? "axis" with
      | none => .error "expected int attribute axis"
      | some axis =>
        match aten.cat inputTensorValues axis with
        | none => .error "cat: invalid arguments"
        | some t => .ok (some t)
  else if node.kind = NodeKind.onnxUnsqueeze then
    if !node.hasAttributeS "axes" then .ok none
    else
      match node.isAttr? "axes" with
      | none => .error "expected ints attribute axes"
      | some axes =>
        match inputTensorValues.get? 0 with
        | none => .error "vector subscript out of range"
        | some t0 => unsqueezeLoop t0 axes
  else if node.kind = NodeKind.onnxTranspose then
    if !node.hasAttributeS "perm" then .ok none
    else
      match node.isAttr? "perm" with
      | none => .error "expected ints attribute perm"
      | some perm =>
        match inputTensorValues.get? 0 with
        | none => .error "vector subscript out of range"
        | some t0 =>
          match aten.permute t0 perm with
          | none => .error "permute: invalid permutation"
          | some t2 => .ok (some t2)
  else if node.kind = NodeKind.onnxCast then
    if node.hasAttributeS "to" then
      match node.iAttr? "to" with
      | none => .error "expected int attribute to"
      | some toCode =>
        match onnxTypeToScalarTypeMap toCode with
        | some st =>
          match inputTensorValues.get? 0 with
          | none => .error "vector subscript out of range"
          | some t0 => .ok (some (t0.to st))
        | none => .ok none
    else .ok none
  else .ok none

/-- isConstant (lines 251-260). -/
def isConstant (b : Block) (val : Nat) (m : ValueToParamPairMap) : Bool :=
  match b.producer? val with
  | none => false
  | some parentNode =>
    (decide (parentNode.kind = NodeKind.primParam) && (mapFind? m val).isSome) ||
      (decide (parentNode.kind = NodeKind.onnxConstant) && !parentNode.mustBeNone &&
        decide (parentNode.kindOf? "value" = some AttrKind.tKind))

/-- One input resolution step of getValues (lines 268-282). -/
def resolveInput (b : Block) (m : ValueToParamPairMap) (val : Nat) :
    Except String Tensor :=
  match b.producer? val with
  | some pn =>
    if pn.kind = NodeKind.primParam then
      match mapFind? m val with
      | some p => .ok p.2
      | none => .error "getValues: Input value not found amongst constant parameters."
    else if pn.kind = NodeKind.onnxConstant then
      match pn.tAttr? "value" with
      | some t => .ok t
      | none => .error "expected a tensor attribute"
    else .error "getValues: Unsupported kind of constant node found."
  | none => .error "getValues: Unsupported kind of constant node found."

def getValuesAux (b : Block) (m : ValueToParamPairMap) :
    List Nat → Except String (List Tensor)
  | [] => .ok []
  | val :: rest =>
    match resolveInput b m val with
    | .error e => .error e
    | .ok t =>
      match getValuesAux b m rest with
      | .error e => .error e
      | .ok ts => .ok (t :: ts)

/-- getValues (lines 262-285). -/
def getValues (b : Block) (node : Node) (m : ValueToParamPairMap) :
    Except String (List Tensor) :=
  getValuesAux b m node.inputs

/-- areNodeInputsConstant (lines 298-305). -/
def areNodeInputsConstant (b : Block) (node : Node) (m : ValueToParamPairMap) : Bool :=
  node.inputs.all (fun v => isConstant b v m)

/-- getOnnxConstParentsToRemove (lines 307-319): input producers that are
onnx::Constant nodes whose single remaining use is the node itself. -/
def getOnnxConstParentsToRemove (b : Block) (node : Node) : List Node :=
  node.inputs.filterMap (fun val =>
    match b.producer? val with
    | some pn =>
      if pn.kind = NodeKind.onnxConstant ∧ b.useCount val = 1 then some pn else none
    | none => none)

/-- The parents snapshot inside the fold action: the node is refetched from
the current block state (the C++ holds a pointer). -/
def foldParentsOf (b2 : Block) (nid : Nat) : List Node :=
  match b2.nodes.find? (fun n => decide (n.id = nid)) with
  | some node2 => getOnnxConstParentsToRemove b2 node2
  | none => []

/-- The fold action of the main loop (lines 365-388), applied once the
backend produced updatedVal: add a block input, record it in the
association, rewire consumers, snapshot the exclusively-owned constant
parents, disconnect and destroy.  Also returns the ids destroyed, in
destruction order. -/
def foldOne (b : Block) (m : ValueToParamPairMap) (nid : Nat) (out0 : Nat)
    (updatedVal : Tensor) : Block × ValueToParamPairMap × List Nat :=
  let newSourceNodeOutput := b.fresh
  let b1 : Block := { b with inputs := b.inputs ++ [newSourceNodeOutput],
                             fresh := b.fresh + 1 }
  let m1 := mapInsert m newSourceNodeOutput (newSourceNodeOutput, updatedVal)
  let b2 := b1.replaceAllUsesWith out0 newSourceNodeOutput
  let parents := foldParentsOf b2 nid
  let b3 := b2.removeAllInputsOf nid
  let b4 := parents.foldl (fun bb pn => bb.destroyNodeById pn.id) b3
  let b5 := b4.destroyNodeById nid
  (b5, m1, parents.map (fun pn => pn.id) ++ [nid])

/-- One iteration of the main loop of ConstantFoldONNX (lines 342-389) on
the node with the given id.  The trace accumulates destroyed node ids in
destruction order. -/
def processNode (opset_version : Int) (b : Block) (m : ValueToParamPairMap)
    (tr : List Nat) (nid : Nat) :
    Except String (Block × ValueToParamPairMap × List Nat) :=
  match b.nodes.find? (fun n => decide (n.id = nid)) with
  | none => .ok (b, m, tr)
  | some node =>
    if node.outputs.length > 1 then .ok (b, m, tr)
    else if !areNodeInputsConstant b node m then .ok (b, m, tr)
    else
      match getValues b node m with
      | .error e => .error e
      | .ok inputTensorValues =>
        if inputTensorValues.isEmpty then .ok (b, m, tr)
        else
          match runTorchBackendForOnnx node inputTensorValues opset_version with
          | .error e => .error e
          | .ok none => .ok (b, m, tr)
          | .ok (some updatedVal) =>
            match node.outputs.get? 0 with
            | none => .error "outputs subscript out of range"
            | some out0 =>
              let r := foldOne b m nid out0 updatedVal
              .ok (r.1, r.2.1, tr ++ r.2.2)

/-- The main loop over the original node sequence.  The C++ iterator visits
every node of the list at loop entry once, in order; nodes destroyed
mid-loop (the current node and already-visited constant parents) are never
revisited, which the by-id lookup in processNode mirrors. -/
def foldLoop (opset_version : Int) :
    List Nat → Block → ValueToParamPairMap → List Nat →
    Except String (Block × ValueToParamPairMap × List Nat)
  | [], b, m, tr => .ok (b, m, tr)
  | nid :: rest, b, m, tr =>
    match processNode opset_version b m tr nid with
    | .error e => .error e
    | .ok (b2, m2, tr2) => foldLoop opset_version rest b2 m2 tr2

/-- ConstantFoldONNX (lines 331-394). -/
def ConstantFoldONNX (b : Block) (paramsDict : ParamMap) (opset_version : Int) :
    Except String (Block × ParamMap) :=
  if opset_version ≠ 9 ∧ opset_version ≠ 10 then .ok (b, paramsDict)
  else
    let valsToParamsMap := buildValueToParamsMap b paramsDict
    match foldLoop opset_version (b.nodes.map (fun n => n.id)) b valsToParamsMap [] with
    | .error e => .error e
    | .ok (b2, m2, _) =>
      let m3 := eraseUnusedValuesFromMap b2 m2
      let b3 := eraseUnusedBlockInputs b2
      .ok (b3, buildParamsMapFromValueToParamsMap m3)

/- ---------------------------------------------------------------------
   Helper lemmas.
--------------------------------------------------------------------- -/

theorem iAttr?_eq_some {node : Node} {s : String} {k : Int}
    (h : node.iAttr? s = some k) : node.findAttr? s = some (.aInt k) := by
  unfold Node.iAttr? at h
  cases e : node.findAttr? s with
  | none => rw [e] at h; exact absurd h (by simp)
  | some av =>
    rw [e] at h
    cases av <;> simp_all

theorem isAttr?_eq_some {node : Node} {s : String} {l : List Int}
    (h : node.isAttr? s = some l) : node.findAttr? s = some (.aInts l) := by
  unfold Node.isAttr? at h
  cases e : node.findAttr? s with
  | none => rw [e] at h; exact absurd h (by simp)
  | some av =>
    rw [e] at h
    cases av <;> simp_all

theorem hasAttributeS_of_findAttr {node : Node} {s : String} {av : AttrValue}
    (h : node.findAttr? s = some av) : node.hasAttributeS s = true := by
  simp [Node.hasAttributeS, h]

/-- The skip behaviour of the main loop body: a node that is multi-output,
has a non-constant input, has no inputs, or whose backend evaluation
returns the not-foldable sentinel is left untouched, and so are the block,
the association and the destruction trace. -/
theorem processNode_skip {v : Int} {b : Block} {m : ValueToParamPairMap}
    {tr : List Nat} {nid : Nat} {node : Node}
    (hfind : b.nodes.find? (fun n => decide (n.id = nid)) = some node)
    (h : node.outputs.length > 1 ∨ areNodeInputsConstant b node m = false ∨
      (∃ ts, getValues b node m = .ok ts ∧
        (ts = [] ∨ runTorchBackendForOnnx node ts v = .ok none))) :
    processNode v b m tr nid = .ok (b, m, tr) := by
  unfold processNode
  rw [hfind]
  rcases h with h1 | h2 | ⟨ts, hts, h3⟩
  · simp [h1]
  · simp [h2]
  · by_cases h1 : node.outputs.length > 1
    · simp [h1]
    · by_cases h2 : areNodeInputsConstant b node m
      · rcases h3 with h3 | h3
        · simp [h1, h2, hts, h3]
        · cases ts with
          | nil => simp [h1, h2, hts]
          | cons a l => simp [h1, h2, hts, h3]
      · simp [h1, h2]

/- ---------------------------------------------------------------------
   Concrete fixtures used by witnesses and counterexamples.
--------------------------------------------------------------------- -/

def fixT46 : Tensor :=
  { dtype := .float32, sizes := [4, 6], data := (List.range 24).map Int.ofNat }

def fixT44 : Tensor :=
  { dtype := .float32, sizes := [4, 4],
    data := [1, 2, 3, 4, 7, 8, 9, 10, 13, 14, 15, 16, 19, 20, 21, 22] }

def fixSliceNode9 : Node :=
  { id := 10, kind := .onnxSlice, inputs := [1], outputs := [2],
    attrs := [("starts", .aInts [1]), ("ends", .aInts [-1]), ("axes", .aInts [1])] }

def fixSliceBlock : Block :=
  { inputs := [1], nodes := [fixSliceNode9], retInputs := [2], fresh := 3 }

def fixR1 : Tensor := { dtype := .float32, sizes := [2], data := [0, 1] }

def fixT23a : Tensor := { dtype := .float32, sizes := [2, 3], data := [0, 1, 2, 3, 4, 5] }

def fixT23b : Tensor := { dtype := .float32, sizes := [2, 3], data := [6, 7, 8, 9, 10, 11] }

def fixConcatRankMismatchNode : Node :=
  { id := 7, kind := .onnxConcat, inputs := [41, 42], outputs := [43],
    attrs := [("axis", .aInt 0)] }

def fixConcatNoAxisNode : Node :=
  { id := 8, kind := .onnxConcat, inputs := [41, 42], outputs := [44], attrs := [] }

def fixCast999Node : Node :=
  { id := 4, kind := .onnxCast, inputs := [21], outputs := [22],
    attrs := [("to", .aInt 999)] }

def fixCast7Node : Node :=
  { id := 4, kind := .onnxCast, inputs := [21], outputs := [22],
    attrs := [("to", .aInt 7)] }

def fixCastBlock : Block :=
  { inputs := [21], nodes := [fixCast999Node], retInputs := [22], fresh := 30 }

def fixCastMap : ValueToParamPairMap := [(21, (21, fixT23a))]

/- ---------------------------------------------------------------------
   C2 — unsupported opset versions are a whole-pass no-op.
--------------------------------------------------------------------- -/

/-- Claim C2: for every opset version other than 9 and 10 the pass returns
immediately (after a diagnostic), leaving the block and the parameter map
completely unchanged. -/
theorem constantFoldONNX_unsupported_opset (b : Block) (d : ParamMap) (v : Int)
    (h9 : v ≠ 9) (h10 : v ≠ 10) : ConstantFoldONNX b d v = .ok (b, d) := by
  unfold ConstantFoldONNX
  simp [h9, h10]

/-- C2 witness: opset 11 on a non-trivial block and dictionary. -/
theorem constantFoldONNX_unsupported_opset_witness :
    ConstantFoldONNX fixSliceBlock [(1, fixT46)] 11 =
      .ok (fixSliceBlock, [(1, fixT46)]) :=
  constantFoldONNX_unsupported_opset _ _ _ (by decide) (by decide)

/- ---------------------------------------------------------------------
   C5 — adapter totality.
--------------------------------------------------------------------- -/

/-- C5 counterexample: the claim says the adapter never raises, but
concatenating two constant tensors of different ranks reaches at::cat with
arguments the tensor library rejects, and the exception propagates out of
runTorchBackendForOnnx (no sentinel is returned). -/
theorem runTorchBackendForOnnx_concat_rank_mismatch_raises :
    runTorchBackendForOnnx fixConcatRankMismatchNode [fixR1, fixT23a] 9 =
      .error "cat: invalid arguments" := by
  rfl

/-- The attribute-level malformations that runTorchBackendForOnnx and its
Slice helpers handle with an explicit not-foldable return. -/
def malformedAttrCase (node : Node) (tvs : List Tensor) (v : Int) : Prop :=
  (node.kind = .onnxSlice ∧ v ≠ 9 ∧ v ≠ 10) ∨
  (node.kind = .onnxSlice ∧ v = 9 ∧ tvs.length ≠ 1) ∨
  (node.kind = .onnxSlice ∧ v = 9 ∧
    (node.hasAttributeS "starts" = false ∨ node.hasAttributeS "ends" = false)) ∨
  (node.kind = .onnxSlice ∧ v = 9 ∧
    ∃ s e, node.isAttr? "starts" = some s ∧ node.isAttr? "ends" = some e ∧
      s.length ≠ e.length) ∨
  (node.kind = .onnxSlice ∧ v = 10 ∧ (tvs.length < 3 ∨ tvs.length > 5)) ∨
  (node.kind = .onnxConcat ∧ node.hasAttributeS "axis" = false) ∨
  (node.kind = .onnxUnsqueeze ∧ node.hasAttributeS "axes" = false) ∨
  (node.kind = .onnxTranspose ∧ node.hasAttributeS "perm" = false) ∨
  (node.kind = .onnxCast ∧ node.hasAttributeS "to" = false) ∨
  (node.kind = .onnxCast ∧
    ∃ k, node.iAttr? "to" = some k ∧ onnxTypeToScalarTypeMap k = none) ∨
  (node.kind ≠ .onnxSlice ∧ node.kind ≠ .onnxConcat ∧ node.kind ≠ .onnxUnsqueeze ∧
    node.kind ≠ .onnxTranspose ∧ node.kind ≠ .onnxCast)

/-- Claim C5 (amended): every attribute-level malformation — wrong input
arity, missing or length-mismatched attributes, cast codes whose 32-bit
narrowed key is missing from the mapping table, unsupported opsets and
unrecognized operator kinds — yields the not-foldable sentinel without
raising; only invalid tensor arguments handed to the underlying tensor
library escape as exceptions. -/
theorem runTorchBackendForOnnx_malformed_attrs_not_foldable
    (node : Node) (tvs : List Tensor) (v : Int) (h : malformedAttrCase node tvs v) :
    runTorchBackendForOnnx node tvs v = .ok none := by
  rcases h with ⟨hk, h9, h10⟩ | ⟨hk, h9, hl⟩ | ⟨hk, h9, hattr⟩ | ⟨hk, h9, s, e, hs, he, hne⟩ |
    ⟨hk, h10, hl⟩ | ⟨hk, hattr⟩ | ⟨hk, hattr⟩ | ⟨hk, hattr⟩ | ⟨hk, hattr⟩ |
    ⟨hk, k, hik, hmap⟩ | ⟨h1, h2, h3, h4, h5⟩
  · simp [runTorchBackendForOnnx, hk, h9, h10]
  · subst h9
    simp [runTorchBackendForOnnx, hk, runTorchSlice_opset9, hl]
  · subst h9
    by_cases hl : tvs.length = 1
    · rcases hattr with hattr | hattr <;>
        simp [runTorchBackendForOnnx, hk, runTorchSlice_opset9, hl, hattr]
    · simp [runTorchBackendForOnnx, hk, runTorchSlice_opset9, hl]
  · subst h9
    by_cases hl : tvs.length = 1
    · have hs2 := isAttr?_eq_some hs
      have he2 := isAttr?_eq_some he
      simp [runTorchBackendForOnnx, hk, runTorchSlice_opset9, hl,
        hasAttributeS_of_findAttr hs2, hasAttributeS_of_findAttr he2, hs, he, hne]
    · simp [runTorchBackendForOnnx, hk, runTorchSlice_opset9, hl]
  · subst h10
    simp [runTorchBackendForOnnx, hk, runTorchSlice_opset10]
    intro h
    omega
  · simp [runTorchBackendForOnnx, hk, hattr]
  · simp [runTorchBackendForOnnx, hk, hattr]
  · simp [runTorchBackendForOnnx, hk, hattr]
  · simp [runTorchBackendForOnnx, hk, hattr]
  · have hfa := iAttr?_eq_some hik
    simp [runTorchBackendForOnnx, hk, hasAttributeS_of_findAttr hfa, hik, hmap]
  · simp [runTorchBackendForOnnx, h1, h2, h3, h4, h5]

/-- C5 amended-claim witness: a Concat node with no axis attribute is
reported not-foldable rather than raising. -/
theorem runTorchBackendForOnnx_malformed_attrs_witness :
    malformedAttrCase fixConcatNoAxisNode [fixT23a, fixT23b] 9 ∧
      runTorchBackendForOnnx fixConcatNoAxisNode [fixT23a, fixT23b] 9 = .ok none := by
  refine ⟨?_, runTorchBackendForOnnx_malformed_attrs_not_foldable _ _ _ ?_⟩ <;>
    exact Or.inr (Or.inr (Or.inr (Or.inr (Or.inr (Or.inl ⟨rfl, rfl⟩)))))

/- ---------------------------------------------------------------------
   C9 — Cast type-code table, unknown codes not foldable.
--------------------------------------------------------------------- -/

def fixCastWrapNode : Node :=
  { id := 4, kind := .onnxCast, inputs := [21], outputs := [22],
    attrs := [("to", .aInt (2 ^ 32 + 1))] }

def fixCastWrapBlock : Block :=
  { inputs := [21], nodes := [fixCastWrapNode], retInputs := [22], fresh := 30 }

/-- C9 counterexample: to = 2^32+1 is none of the table's ONNX codes, yet
the lookup narrows it to the 32-bit key 1, so the node folds as float32 and
the main loop rewrites the block and adds a parameter input — against the
claim's "an unrecognized type code returns not-foldable, so the node stays
unfolded and no parameter is added". -/
theorem cast_unknown_code_folds_counterexample :
    ((2 : Int) ^ 32 + 1) ∉ [(1 : Int), 2, 3, 4, 5, 6, 7, 10, 11, 12] ∧
    runTorchBackendForOnnx fixCastWrapNode [fixT23a] 9 =
      .ok (some (fixT23a.to ScalarType.float32)) ∧
    processNode 9 fixCastWrapBlock fixCastMap [] 4 =
      .ok ({ inputs := [21, 30], nodes := [], retInputs := [30], fresh := 31 },
        [(21, (21, fixT23a)), (30, (30, fixT23a.to ScalarType.float32))], [4]) :=
  ⟨by decide, by rfl, by rfl⟩

/-- Claim C9 (amended): every lookup narrows the 64-bit to attribute to the
table's 32-bit int key (two's-complement wrap modulo 2^32 into
[-2^31, 2^31)); on the narrowed key the fixed table maps 1→float32,
2→uint8, 3→int8, 4→int32, 5→int16, 6→int32, 7→int64, 10→float32,
11→float64, 12→int64; a missing to attribute or a code whose narrowed
value is not in the table (e.g. to = 999) yields the not-foldable sentinel,
and the main loop then leaves the node and the whole state (block,
association, trace) untouched, so no parameter is added. -/
theorem cast_mapping_table_and_unknown_codes :
    (∀ k : Int, -2 ^ 31 ≤ int32Of k ∧ int32Of k < 2 ^ 31 ∧
      (2 ^ 32 : Int) ∣ (k - int32Of k)) ∧
    (onnxTypeToScalarTypeMap 1 = some ScalarType.float32 ∧
     onnxTypeToScalarTypeMap 2 = some ScalarType.uint8 ∧
     onnxTypeToScalarTypeMap 3 = some ScalarType.int8 ∧
     onnxTypeToScalarTypeMap 4 = some ScalarType.int32 ∧
     onnxTypeToScalarTypeMap 5 = some ScalarType.int16 ∧
     onnxTypeToScalarTypeMap 6 = some ScalarType.int32 ∧
     onnxTypeToScalarTypeMap 7 = some ScalarType.int64 ∧
     onnxTypeToScalarTypeMap 10 = some ScalarType.float32 ∧
     onnxTypeToScalarTypeMap 11 = some ScalarType.float64 ∧
     onnxTypeToScalarTypeMap 12 = some ScalarType.int64) ∧
    (∀ k : Int, onnxTypeToScalarTypeMap k = onnxTypeToScalarTypeMap (int32Of k)) ∧
    (∀ (node : Node) (t : Tensor) (v k : Int) (st : ScalarType),
      node.kind = NodeKind.onnxCast → node.iAttr? "to" = some k →
      onnxTypeToScalarTypeMap k = some st →
      runTorchBackendForOnnx node [t] v = .ok (some (t.to st))) ∧
    (∀ (node : Node) (t : Tensor) (v : Int),
      node.kind = NodeKind.onnxCast → node.hasAttributeS "to" = false →
      runTorchBackendForOnnx node [t] v = .ok none) ∧
    (∀ (node : Node) (t : Tensor) (v k : Int),
      node.kind = NodeKind.onnxCast → node.iAttr? "to" = some k →
      onnxTypeToScalarTypeMap k = none →
      runTorchBackendForOnnx node [t] v = .ok none) ∧
    (∀ (v k : Int) (b : Block) (m : ValueToParamPairMap) (tr : List Nat)
        (nid : Nat) (node : Node) (t : Tensor),
      b.nodes.find? (fun n => decide (n.id = nid)) = some node →
      node.kind = NodeKind.onnxCast →
      getValues b node m = .ok [t] →
      node.iAttr? "to" = some k →
      onnxTypeToScalarTypeMap k = none →
      processNode v b m tr nid = .ok (b, m, tr)) := by
  refine ⟨?_, ⟨rfl, rfl, rfl, rfl, rfl, rfl, rfl, rfl, rfl, rfl⟩, ?_, ?_, ?_, ?_, ?_⟩
  · intro k
    unfold int32Of
    refine ⟨by omega, by omega, ?_⟩
    refine ⟨(k + 2 ^ 31) / 2 ^ 32, ?_⟩
    omega
  · intro k
    have hid : int32Of (int32Of k) = int32Of k := by
      unfold int32Of
      omega
    unfold onnxTypeToScalarTypeMap
    rw [hid]
  · intro node t v k st hkind hto hmap
    have hfa := iAttr?_eq_some hto
    simp [runTorchBackendForOnnx, hkind, hasAttributeS_of_findAttr hfa, hto, hmap]
  · intro node t v hkind hattr
    simp [runTorchBackendForOnnx, hkind, hattr]
  · intro node t v k hkind hto hmap
    have hfa := iAttr?_eq_some hto
    simp [runTorchBackendForOnnx, hkind, hasAttributeS_of_findAttr hfa, hto, hmap]
  · intro v k b m tr nid node t hfind hkind hvals hto hmap
    refine processNode_skip hfind (Or.inr (Or.inr ⟨[t], hvals, Or.inr ?_⟩))
    have hfa := iAttr?_eq_some hto
    simp [runTorchBackendForOnnx, hkind, hasAttributeS_of_findAttr hfa, hto, hmap]

/-- C9 witness: a Cast node with to = 999 evaluates to the sentinel, and the
main loop leaves the surrounding block, association and trace unchanged. -/
theorem cast_mapping_table_witness :
    runTorchBackendForOnnx fixCast999Node [fixT23a] 9 = .ok none ∧
      processNode 9 fixCastBlock fixCastMap [] 4 = .ok (fixCastBlock, fixCastMap, []) := by
  constructor
  · exact cast_mapping_table_and_unknown_codes.2.2.2.2.2.1 fixCast999Node fixT23a 9 999
      rfl rfl rfl
  · exact cast_mapping_table_and_unknown_codes.2.2.2.2.2.2 9 999 fixCastBlock
      fixCastMap [] 4 fixCast999Node fixT23a (by rfl) rfl (by rfl) rfl rfl

/- ---------------------------------------------------------------------
   C10 — the classifier guards every getValues error branch.
--------------------------------------------------------------------- -/

theorem tAttr?_isSome_of_kindOf {node : Node} {s : String}
    (h : node.kindOf? s = some AttrKind.tKind) : ∃ t, node.tAttr? s = some t := by
  unfold Node.kindOf? at h
  cases e : node.findAttr? s with
  | none => rw [e] at h; exact absurd h (by simp)
  | some av =>
    rw [e] at h
    cases av with
    | aTensor t => exact ⟨t, by simp [Node.tAttr?, e]⟩
    | aInt v => simp [attrKindOf] at h
    | aInts v => simp [attrKindOf] at h
    | aOther => simp [attrKindOf] at h

theorem resolveInput_ok_of_isConstant {b : Block} {m : ValueToParamPairMap} {val : Nat}
    (h : isConstant b val m = true) : ∃ t, resolveInput b m val = .ok t := by
  unfold isConstant at h
  cases e : b.producer? val with
  | none => rw [e] at h; exact absurd h (by simp)
  | some pn =>
    rw [e] at h
    simp only [Bool.or_eq_true, Bool.and_eq_true, decide_eq_true_eq] at h
    rcases h with ⟨hk, hm⟩ | ⟨⟨hk, _⟩, ht⟩
    · cases e2 : mapFind? m val with
      | none => rw [e2] at hm; exact absurd hm (by simp)
      | some p => exact ⟨p.2, by simp [resolveInput, e, hk, e2]⟩
    · obtain ⟨t, ht2⟩ := tAttr?_isSome_of_kindOf ht
      refine ⟨t, ?_⟩
      have hk2 : pn.kind ≠ NodeKind.primParam := by rw [hk]; simp
      simp [resolveInput, e, hk, hk2, ht2]

theorem getValuesAux_ok_of_all_const (b : Block) (m : ValueToParamPairMap) :
    ∀ l : List Nat, (∀ v ∈ l, isConstant b v m = true) →
      ∃ ts, getValuesAux b m l = .ok ts ∧ ts.length = l.length := by
  intro l
  induction l with
  | nil => exact fun _ => ⟨[], rfl, rfl⟩
  | cons a rest ih =>
    intro h
    obtain ⟨t, ht⟩ := resolveInput_ok_of_isConstant (h a (by simp))
    obtain ⟨ts, hts, hlen⟩ := ih (fun v hv => h v (by simp [hv]))
    exact ⟨t :: ts, by simp [getValuesAux, ht, hts], by simp [hlen]⟩

/-- Claim C10: whenever areNodeInputsConstant accepts a node, getValues
resolves every input to a concrete tensor; neither of its error branches
(value not found amongst constant parameters / unsupported kind of constant
node) is reachable under that precondition. -/
theorem getValues_ok_of_areNodeInputsConstant (b : Block) (node : Node)
    (m : ValueToParamPairMap) (h : areNodeInputsConstant b node m = true) :
    ∃ ts, getValues b node m = .ok ts ∧ ts.length = node.inputs.length := by
  unfold areNodeInputsConstant at h
  simp only [List.all_eq_true] at h
  exact getValuesAux_ok_of_all_const b m node.inputs h

/-- C10 witness: a cast node whose single input is an associated parameter. -/
theorem getValues_ok_of_areNodeInputsConstant_witness :
    ∃ ts, getValues fixCastBlock fixCast999Node fixCastMap = .ok ts ∧
      ts.length = fixCast999Node.inputs.length :=
  getValues_ok_of_areNodeInputsConstant _ _ _ (by rfl)

/- ---------------------------------------------------------------------
   C3 — opset-9 Slice semantics.
--------------------------------------------------------------------- -/

/-- The opset-9 slice algorithm exactly as the claim words it: for each
(axis, start, end) triple in order, normalize a negative start or end by
adding the current axis extent, clamp end to the extent, compute
length = end - start, fail (not-foldable) if length < 0 or
start > extent - length, otherwise narrow the already-narrowed tensor
along that axis. -/
def sliceSpec (t : Tensor) : List (Int × Int × Int) → Except String (Option Tensor)
  | [] => .ok (some t)
  | (axis, start, end2) :: rest =>
    match (if 0 ≤ axis then t.sizes.get? axis.toNat else none) with
    | none => .error "IntArrayRef subscript out of range"
    | some szN =>
      let sz : Int := szN
      let start2 := if start < 0 then sz + start else start
      let end3 := if end2 < 0 then sz + end2 else end2
      let end4 := if end3 > sz then sz else end3
      let length := end4 - start2
      if length < 0 ∨ start2 > sz - length then .ok none
      else
        match aten.narrow t axis start2 length with
        | none => .error "narrow: start and length out of range"
        | some t2 => sliceSpec t2 rest

theorem sliceAxesFrom_eq_sliceSpec (startsAttr endsAttr : List Int)
    (hlen : startsAttr.length = endsAttr.length) :
    ∀ (axesAttr : List Int) (i : Nat) (t : Tensor),
      i + axesAttr.length ≤ startsAttr.length →
      sliceAxesFrom startsAttr endsAttr axesAttr i t =
        sliceSpec t (axesAttr.zip ((startsAttr.drop i).zip (endsAttr.drop i))) := by
  intro axesAttr
  induction axesAttr with
  | nil => intro i t _; simp [sliceAxesFrom, sliceSpec]
  | cons axis rest ih =>
    intro i t h
    have hi : i < startsAttr.length := by simp at h; omega
    have hi2 : i < endsAttr.length := by omega
    have hs : startsAttr.get? i = some startsAttr[i] := by
      rw [List.get?_eq_getElem?]; exact List.getElem?_eq_getElem hi
    have he : endsAttr.get? i = some endsAttr[i] := by
      rw [List.get?_eq_getElem?]; exact List.getElem?_eq_getElem hi2
    rw [List.drop_eq_getElem_cons hi, List.drop_eq_getElem_cons hi2,
      List.zip_cons_cons, List.zip_cons_cons]
    show sliceAxesFrom startsAttr endsAttr (axis :: rest) i t = _
    unfold sliceAxesFrom sliceSpec handleNegativeStartEndIndex
    rw [hs, he]
    by_cases h0 : 0 ≤ axis
    · cases e1 : t.sizes.get? axis.toNat with
      | none => simp only [h0, if_true, e1]
      | some szN =>
        have hgd : t.sizes.getD axis.toNat 0 = szN := by
          rw [List.getD_eq_getElem?_getD, ← List.get?_eq_getElem?, e1]; rfl
        have hleaf : ∀ t2 : Tensor, sliceAxesFrom startsAttr endsAttr rest (i + 1) t2 =
            sliceSpec t2 (rest.zip ((startsAttr.drop (i + 1)).zip (endsAttr.drop (i + 1)))) :=
          fun t2 => ih (i + 1) t2 (by simp at h ⊢; omega)
        simp only [h0, if_true, e1, hgd, hleaf]
    · simp only [h0, if_false]

/-- Claim C3: an opset-9 Slice node with one constant input and equal-length
starts/ends evaluates by the claim's per-axis algorithm (sliceSpec over the
axis/start/end triples, with axes defaulting to 0..len-1 when absent); and
the concrete [4,6] tensor sliced with starts=[1], ends=[-1], axes=[1] folds
through the whole pass to the [4,4] parameter holding the original columns
1..4. -/
theorem slice_opset9_matches_spec :
    (∀ (node : Node) (t : Tensor) (startsAttr endsAttr axesAttr : List Int),
      node.isAttr? "starts" = some startsAttr →
      node.isAttr? "ends" = some endsAttr →
      (if node.hasAttributeS "axes" then node.isAttr? "axes"
       else some (rangeInts startsAttr.length)) = some axesAttr →
      startsAttr.length = endsAttr.length →
      axesAttr.length = startsAttr.length →
      runTorchSlice_opset9 node [t] =
        sliceSpec t (axesAttr.zip (startsAttr.zip endsAttr))) ∧
    ConstantFoldONNX fixSliceBlock [(1, fixT46)] 9 =
      .ok ({ inputs := [3], nodes := [], retInputs := [3], fresh := 4 }, [(3, fixT44)]) := by
  constructor
  · intro node t startsAttr endsAttr axesAttr hs he ha hlen _
    have hs2 := isAttr?_eq_some hs
    have he2 := isAttr?_eq_some he
    unfold runTorchSlice_opset9
    rw [if_neg (by simp)]
    rw [if_neg (by simp [hasAttributeS_of_findAttr hs2, hasAttributeS_of_findAttr he2])]
    rw [hs, he]
    show (if startsAttr.length ≠ endsAttr.length then Except.ok none else _) = _
    rw [if_neg (by omega)]
    rw [ha]
    show sliceAxesFrom startsAttr endsAttr axesAttr 0 t = _
    have := sliceAxesFrom_eq_sliceSpec startsAttr endsAttr hlen axesAttr 0 t (by omega)
    simpa using this
  · rfl

/-- C3 witness: the scenario node evaluated through both the source slice
routine and the claim's algorithm. -/
theorem slice_opset9_matches_spec_witness :
    runTorchSlice_opset9 fixSliceNode9 [fixT46] = sliceSpec fixT46 [(1, 1, -1)] ∧
    sliceSpec fixT46 [(1, 1, -1)] = .ok (some fixT44) := by
  constructor
  · exact slice_opset9_matches_spec.1 fixSliceNode9 fixT46 [1] [-1] [1] rfl rfl rfl rfl rfl
  · rfl

/- ---------------------------------------------------------------------
   C6 — opset-10 Slice consumes the explicit axes tensor positionally.
--------------------------------------------------------------------- -/

/-- Claim C6: with an explicit rank-1 axes input of the same length n as
starts and ends (and 64-bit integer data, as the accessors demand), the
opset-10 slice runs the shared narrowing loop on an axes list whose i-th
entry is exactly the i-th element of the axes tensor, for every i < n; this
holds both without and with a steps input (the latter all ones). -/
theorem slice_opset10_uses_axes_tensor :
    (∀ (node : Node) (d s e a : Tensor) (n : Nat),
      s.sizes = [n] → e.sizes = [n] → a.sizes = [n] →
      s.dtype = ScalarType.int64 → e.dtype = ScalarType.int64 →
      a.dtype = ScalarType.int64 → n ≤ a.data.length →
      ∃ axes : List Int, axes.length = n ∧
        (∀ i, i < n → axes.get? i = a.data.get? i) ∧
        runTorchSlice_opset10 node [d, s, e, a] = sliceAxesFrom s.data e.data axes 0 d) ∧
    (∀ (node : Node) (d s e a st : Tensor) (n : Nat),
      s.sizes = [n] → e.sizes = [n] → a.sizes = [n] → st.sizes = [n] →
      s.dtype = ScalarType.int64 → e.dtype = ScalarType.int64 →
      a.dtype = ScalarType.int64 → st.dtype = ScalarType.int64 →
      n ≤ a.data.length →
      scanStepsAux st.data 0 n = .ok true →
      ∃ axes : List Int, axes.length = n ∧
        (∀ i, i < n → axes.get? i = a.data.get? i) ∧
        runTorchSlice_opset10 node [d, s, e, a, st] =
          sliceAxesFrom s.data e.data axes 0 d) := by
  constructor
  · intro node d s e a n hs he ha hsd hed had hlen
    refine ⟨a.data.take n, by simp [List.length_take]; omega,
      fun i hi => by simp [List.get?_eq_getElem?, List.getElem?_take, hi], ?_⟩
    unfold runTorchSlice_opset10 axesOf_opset10 stepsCheck_opset10 accessorInt1
    simp [hs, he, ha, hsd, hed, had, Nat.not_lt.mpr hlen]
  · intro node d s e a st n hs he ha hst hsd hed had hstd hlen hscan
    refine ⟨a.data.take n, by simp [List.length_take]; omega,
      fun i hi => by simp [List.get?_eq_getElem?, List.getElem?_take, hi], ?_⟩
    unfold runTorchSlice_opset10 axesOf_opset10 stepsCheck_opset10 accessorInt1
    simp [hs, he, ha, hst, hsd, hed, had, hstd, Nat.not_lt.mpr hlen, hscan]

def fixI1 : Tensor := { dtype := .int64, sizes := [1], data := [1] }

def fixIm1 : Tensor := { dtype := .int64, sizes := [1], data := [-1] }

/-- C6 witness: the [4,6] tensor with starts=[1], ends=[-1], axes=[1]
given as opset-10 inputs narrows along axis 1 as dictated by the axes
tensor. -/
theorem slice_opset10_uses_axes_tensor_witness :
    ∃ axes : List Int, axes.length = 1 ∧
      (∀ i, i < 1 → axes.get? i = fixI1.data.get? i) ∧
      runTorchSlice_opset10 fixSliceNode9 [fixT46, fixI1, fixIm1, fixI1] =
        sliceAxesFrom fixI1.data fixIm1.data axes 0 fixT46 :=
  slice_opset10_uses_axes_tensor.1 fixSliceNode9 fixT46 fixI1 fixIm1 fixI1 1
    rfl rfl rfl rfl rfl rfl (by decide)

/- ---------------------------------------------------------------------
   C8 — opset-10 Slice with steps other than 1 is not foldable.
--------------------------------------------------------------------- -/

theorem scanStepsAux_ok_false (l : List Int) :
    ∀ (k i : Nat), i + k ≤ l.length →
      (∃ j, i ≤ j ∧ j < i + k ∧ l.get? j ≠ some 1) →
      scanStepsAux l i k = .ok false := by
  intro k
  induction k with
  | zero => intro i _ hj; obtain ⟨j, h1, h2, _⟩ := hj; omega
  | succ k ih =>
    intro i hlen hj
    have hi : i < l.length := by omega
    have hread : l.get? i = some l[i] := by
      rw [List.get?_eq_getElem?]; exact List.getElem?_eq_getElem hi
    unfold scanStepsAux
    rw [hread]
    by_cases hv : l[i] ≠ 1
    · simp [hv]
    · simp only [ne_eq, not_not] at hv
      simp only [hv, ne_eq, not_true_eq_false, if_neg, ite_false]
      refine ih (i + 1) (by omega) ?_
      obtain ⟨j, h1, h2, h3⟩ := hj
      refine ⟨j, ?_, by omega, h3⟩
      rcases Nat.eq_or_lt_of_le h1 with he | hlt
      · exfalso; apply h3; rw [← he, hread, hv]
      · omega

/-- Claim C8: an opset-10 Slice whose steps tensor has an entry other than
1 evaluates to the not-foldable sentinel, and the main loop then leaves the
node in the graph with the whole state untouched: no parameter input is
added, no rewiring occurs. -/
theorem slice_opset10_steps_not_one_unfolded
    (b : Block) (m : ValueToParamPairMap) (tr : List Nat) (nid : Nat) (node : Node)
    (d s e a st : Tensor) (n : Nat)
    (hfind : b.nodes.find? (fun nd => decide (nd.id = nid)) = some node)
    (hkind : node.kind = NodeKind.onnxSlice)
    (hvals : getValues b node m = .ok [d, s, e, a, st])
    (hs : s.sizes = [n]) (he : e.sizes = [n]) (ha : a.sizes = [n]) (hst : st.sizes = [n])
    (had : a.dtype = ScalarType.int64) (hstd : st.dtype = ScalarType.int64)
    (halen : n ≤ a.data.length) (hstlen : n ≤ st.data.length)
    (hbad : ∃ j, j < n ∧ st.data.get? j ≠ some 1) :
    runTorchSlice_opset10 node [d, s, e, a, st] = .ok none ∧
    runTorchBackendForOnnx node [d, s, e, a, st] 10 = .ok none ∧
    processNode 10 b m tr nid = .ok (b, m, tr) := by
  have hscan : scanStepsAux st.data 0 n = .ok false := by
    refine scanStepsAux_ok_false st.data n 0 (by omega) ?_
    obtain ⟨j, h1, h2⟩ := hbad
    exact ⟨j, by omega, by omega, h2⟩
  have h10 : runTorchSlice_opset10 node [d, s, e, a, st] = .ok none := by
    unfold runTorchSlice_opset10 axesOf_opset10 stepsCheck_opset10 accessorInt1
    simp [hs, he, ha, hst, had, hstd, Nat.not_lt.mpr halen, hscan]
  have hrun : runTorchBackendForOnnx node [d, s, e, a, st] 10 = .ok none := by
    unfold runTorchBackendForOnnx
    simp [hkind, h10]
  exact ⟨h10, hrun, processNode_skip hfind
    (Or.inr (Or.inr ⟨[d, s, e, a, st], hvals, Or.inr hrun⟩))⟩

def fixI0 : Tensor := { dtype := .int64, sizes := [1], data := [0] }

def fixI2 : Tensor := { dtype := .int64, sizes := [1], data := [2] }

def fixConstStarts : Node :=
  { id := 61, kind := .onnxConstant, inputs := [], outputs := [71],
    attrs := [("value", .aTensor fixI0)] }

def fixConstEnds : Node :=
  { id := 62, kind := .onnxConstant, inputs := [], outputs := [72],
    attrs := [("value", .aTensor fixI2)] }

def fixConstAxes : Node :=
  { id := 63, kind := .onnxConstant, inputs := [], outputs := [73],
    attrs := [("value", .aTensor fixI0)] }

def fixConstSteps : Node :=
  { id := 64, kind := .onnxConstant, inputs := [], outputs := [74],
    attrs := [("value", .aTensor fixI2)] }

def fixSlice10Node : Node :=
  { id := 65, kind := .onnxSlice, inputs := [50, 71, 72, 73, 74], outputs := [75],
    attrs := [] }

def fixSlice10Block : Block :=
  { inputs := [50],
    nodes := [fixConstStarts, fixConstEnds, fixConstAxes, fixConstSteps, fixSlice10Node],
    retInputs := [75], fresh := 100 }

def fixSlice10Map : ValueToParamPairMap := [(50, (50, fixT46))]

/-- C8 witness: the scenario starts=[0], ends=[2], steps=[2] leaves the
slice node and the whole pass state untouched. -/
theorem slice_opset10_steps_not_one_unfolded_witness :
    runTorchSlice_opset10 fixSlice10Node [fixT46, fixI0, fixI2, fixI0, fixI2] = .ok none ∧
    runTorchBackendForOnnx fixSlice10Node [fixT46, fixI0, fixI2, fixI0, fixI2] 10 = .ok none ∧
    processNode 10 fixSlice10Block fixSlice10Map [] 65 =
      .ok (fixSlice10Block, fixSlice10Map, []) :=
  slice_opset10_steps_not_one_unfolded fixSlice10Block fixSlice10Map [] 65
    fixSlice10Node fixT46 fixI0 fixI2 fixI0 fixI2 1
    (by rfl) rfl (by rfl) rfl rfl rfl rfl rfl rfl (by decide) (by decide)
    ⟨0, by decide, by decide⟩

/- ---------------------------------------------------------------------
   C7 — exclusively-owned constant parents die first.
--------------------------------------------------------------------- -/

theorem map_subst_id (l : List Nat) (o n2 : Nat) (h : o ∉ l) :
    l.map (fun v => if v = o then n2 else v) = l := by
  induction l with
  | nil => rfl
  | cons a r ih =>
    simp only [List.mem_cons, not_or] at h
    have ha : a ≠ o := fun hh => h.1 hh.symm
    simp [ha, ih h.2]

theorem countP_map_subst (l : List Nat) (o n2 x : Nat) (hx1 : x ≠ o) (hx2 : x ≠ n2) :
    (l.map (fun v => if v = o then n2 else v)).countP (fun y => decide (y = x)) =
      l.countP (fun y => decide (y = x)) := by
  rw [List.countP_map]
  refine List.countP_congr ?_
  intro y _
  by_cases hy : y = o
  · subst hy
    simp [Function.comp, Ne.symm hx2, Ne.symm hx1]
  · simp [Function.comp, hy]

theorem useCount_replace (b : Block) (o n2 x : Nat) (hx1 : x ≠ o) (hx2 : x ≠ n2) :
    (b.replaceAllUsesWith o n2).useCount x = b.useCount x := by
  unfold Block.replaceAllUsesWith Block.useCount
  simp only [List.map_map]
  congr 1
  · congr 1
    apply List.map_congr_left
    intro n _
    exact countP_map_subst n.inputs o n2 x hx1 hx2
  · exact countP_map_subst b.retInputs o n2 x hx1 hx2

theorem useCount_fields (nodes : List Node) (i1 i2 r : List Nat) (f1 f2 : Nat)
    (v : Nat) :
    Block.useCount ⟨i1, nodes, r, f1⟩ v = Block.useCount ⟨i2, nodes, r, f2⟩ v := rfl

theorem producer?_mem_nodes {b : Block} {x : Nat} {pn : Node}
    (h : b.producer? x = some pn) (hk : pn.kind ≠ NodeKind.primParam) :
    pn ∈ b.nodes ∧ x ∈ pn.outputs := by
  unfold Block.producer? at h
  by_cases hx : x ∈ b.inputs
  · rw [if_pos hx] at h
    exact absurd (congrArg Node.kind (Option.some.inj h)).symm (by simp [Block.paramNodeOf, hk])
  · rw [if_neg hx] at h
    refine ⟨List.mem_of_find?_eq_some h, ?_⟩
    have := List.find?_some h
    simpa using this

theorem find?_map_nodeId (l : List Node) (f : Node → Node) (hf : ∀ n, (f n).id = n.id)
    (nid : Nat) :
    (l.map f).find? (fun n => decide (n.id = nid)) =
      (l.find? (fun n => decide (n.id = nid))).map f := by
  have hp : ((fun n : Node => decide (n.id = nid)) ∘ f) =
      (fun n : Node => decide (n.id = nid)) := by
    funext n; simp [Function.comp, hf]
  rw [List.find?_map, hp]

theorem find?_map_outputs (l : List Node) (f : Node → Node)
    (hf : ∀ n, (f n).outputs = n.outputs) (x : Nat) :
    (l.map f).find? (fun n => decide (x ∈ n.outputs)) =
      (l.find? (fun n => decide (x ∈ n.outputs))).map f := by
  have hp : ((fun n : Node => decide (x ∈ n.outputs)) ∘ f) =
      (fun n : Node => decide (x ∈ n.outputs)) := by
    funext n; simp [Function.comp, hf]
  rw [List.find?_map, hp]

/-- The snapshot of exclusively-owned onnx::Constant parents taken after the
consumer rewiring equals the snapshot on the pre-fold state: the rewiring
replaces only the folded output, which is neither an input of the node nor
an input of any of its producers. -/
theorem getParents_after_rewire (b : Block) (node : Node) (o : Nat)
    (hself : o ∉ node.inputs)
    (hinlt : ∀ x ∈ node.inputs, x < b.fresh)
    (hnocycle : ∀ x ∈ node.inputs, ∀ pn, b.producer? x = some pn → o ∉ pn.inputs) :
    getOnnxConstParentsToRemove
      (Block.replaceAllUsesWith
        { b with inputs := b.inputs ++ [b.fresh], fresh := b.fresh + 1 } o b.fresh) node =
    getOnnxConstParentsToRemove b node := by
  unfold getOnnxConstParentsToRemove
  refine List.filterMap_congr ?_
  intro x hx
  have hxo : x ≠ o := fun h => hself (h ▸ hx)
  have hxf : x ≠ b.fresh := by have := hinlt x hx; omega
  have hcount : (Block.replaceAllUsesWith
      { b with inputs := b.inputs ++ [b.fresh], fresh := b.fresh + 1 } o b.fresh).useCount x =
      b.useCount x := by
    rw [useCount_replace _ _ _ _ hxo hxf]
    exact useCount_fields b.nodes _ _ _ _ _ x
  unfold Block.producer? Block.replaceAllUsesWith
  simp only []
  by_cases hmem : x ∈ b.inputs
  · rw [if_pos (by simp [hmem]), if_pos hmem]
    simp [Block.paramNodeOf]
  · rw [if_neg (by simp [hmem, hxf]), if_neg hmem]
    rw [find?_map_outputs b.nodes
      (fun n => { n with inputs := n.inputs.map (fun v => if v = o then b.fresh else v) })
      (fun n => rfl) x]
    cases e : b.nodes.find? (fun n => decide (x ∈ n.outputs)) with
    | none => rfl
    | some pn =>
      simp only [Option.map_some']
      have ho : o ∉ pn.inputs := by
        refine hnocycle x hx pn ?_
        unfold Block.producer?
        rw [if_neg hmem, e]
      have hpn : { pn with
          inputs := pn.inputs.map (fun v => if v = o then b.fresh else v) } = pn := by
        simp [map_subst_id pn.inputs o b.fresh ho]
      have hcount3 : Block.useCount
          { inputs := b.inputs ++ [b.fresh],
            nodes := b.nodes.map (fun n =>
              { n with inputs := n.inputs.map (fun v => if v = o then b.fresh else v) }),
            retInputs := b.retInputs.map (fun v => if v = o then b.fresh else v),
            fresh := b.fresh + 1 } x = b.useCount x := by
        have h2 := useCount_replace
          { b with inputs := b.inputs ++ [b.fresh], fresh := b.fresh + 1 } o b.fresh x hxo hxf
        unfold Block.replaceAllUsesWith at h2
        simp only [] at h2
        rw [h2]
        exact useCount_fields b.nodes _ _ _ _ _ x
      simp only [hpn, hcount3]

/-- Evaluation of the fold branch of the main loop body. -/
theorem processNode_fold {v : Int} {b : Block} {m : ValueToParamPairMap}
    {tr : List Nat} {nid : Nat} {node : Node} {ts : List Tensor} {val : Tensor}
    {out0 : Nat}
    (hfind : b.nodes.find? (fun n => decide (n.id = nid)) = some node)
    (hout : ¬ node.outputs.length > 1)
    (hconst : areNodeInputsConstant b node m = true)
    (hvals : getValues b node m = .ok ts)
    (hne : ts ≠ [])
    (hrun : runTorchBackendForOnnx node ts v = .ok (some val))
    (houts : node.outputs.get? 0 = some out0) :
    processNode v b m tr nid =
      .ok ((foldOne b m nid out0 val).1, (foldOne b m nid out0 val).2.1,
        tr ++ (foldOne b m nid out0 val).2.2) := by
  have hempty : ts.isEmpty = false := by
    cases ts with
    | nil => exact absurd rfl hne
    | cons a l => rfl
  unfold processNode
  simp only [hfind, if_neg hout, hconst, Bool.not_true, Bool.false_eq_true, if_false,
    hvals, hempty, hrun, houts]

theorem mem_foldl_destroy (parents : List Node) :
    ∀ (bb : Block) (pn : Node), pn ∈ bb.nodes → (∀ q ∈ parents, q.id ≠ pn.id) →
      pn ∈ (parents.foldl (fun b2 q => b2.destroyNodeById q.id) bb).nodes := by
  induction parents with
  | nil => intro bb pn h _; exact h
  | cons q rest ih =>
    intro bb pn h hq
    refine ih _ pn ?_ (fun r hr => hq r (by simp [hr]))
    unfold Block.destroyNodeById
    simp only [List.mem_filter]
    refine ⟨h, by simpa using fun hh => (hq q (by simp)) hh.symm⟩

theorem mem_getParents_elim {b : Block} {node q : Node}
    (h : q ∈ getOnnxConstParentsToRemove b node) :
    ∃ y, y ∈ node.inputs ∧ b.producer? y = some q ∧
      q.kind = NodeKind.onnxConstant ∧ b.useCount y = 1 := by
  unfold getOnnxConstParentsToRemove at h
  rw [List.mem_filterMap] at h
  obtain ⟨y, hy, he⟩ := h
  cases e : b.producer? y with
  | none => rw [e] at he; exact absurd he (by simp)
  | some pn =>
    rw [e] at he
    have he2 : (if pn.kind = NodeKind.onnxConstant ∧ b.useCount y = 1
        then some pn else none) = some q := he
    by_cases hc : pn.kind = NodeKind.onnxConstant ∧ b.useCount y = 1
    · rw [if_pos hc] at he2
      have := Option.some.inj he2
      subst this
      exact ⟨y, hy, e, hc.1, hc.2⟩
    · rw [if_neg hc] at he2; exact absurd he2 (by simp)

theorem length_le_one_mem_eq {l : List Nat} (h : l.length ≤ 1) {x y : Nat}
    (hx : x ∈ l) (hy : y ∈ l) : x = y := by
  cases l with
  | nil => cases hx
  | cons a r =>
    cases r with
    | nil =>
      simp at hx hy
      rw [hx, hy]
    | cons b r2 => simp at h

/-- Claim C7: when a node folds, the snapshot of its literal-constant
producers with exactly one use — taken on the pre-fold state, i.e. before
the folded node's inputs are removed — is destroyed in order before the
folded node itself (the destruction trace extends by parents ++ [node]);
literal-constant producers with any other remaining use are left in the
graph. -/
theorem folded_node_destroys_exclusive_const_parents
    (v : Int) (b : Block) (m : ValueToParamPairMap) (tr : List Nat) (nid : Nat)
    (node : Node) (ts : List Tensor) (val : Tensor) (out0 : Nat)
    (hfind : b.nodes.find? (fun n => decide (n.id = nid)) = some node)
    (hconst : areNodeInputsConstant b node m = true)
    (hvals : getValues b node m = .ok ts)
    (hne : ts ≠ [])
    (hrun : runTorchBackendForOnnx node ts v = .ok (some val))
    (houts : node.outputs = [out0])
    (hnodup : (b.nodes.map Node.id).Nodup)
    (hself : out0 ∉ node.inputs)
    (hinlt : ∀ x ∈ node.inputs, x < b.fresh)
    (hnocycle : ∀ x ∈ node.inputs, ∀ pn, b.producer? x = some pn → out0 ∉ pn.inputs)
    (hconst1 : ∀ nd ∈ b.nodes, nd.kind = NodeKind.onnxConstant → nd.outputs.length ≤ 1) :
    ∃ b5 m1, processNode v b m tr nid =
        .ok (b5, m1, tr ++ (getOnnxConstParentsToRemove b node).map Node.id ++ [nid]) ∧
      ∀ x ∈ node.inputs, ∀ pn, b.producer? x = some pn →
        pn.kind = NodeKind.onnxConstant → 2 ≤ b.useCount x → pn.id ≠ nid →
        pn ∈ b5.nodes := by
  have hpe := @processNode_fold v b m tr nid node ts val out0 hfind (by simp [houts])
    hconst hvals hne hrun (by rw [houts]; rfl)
  have hfind2 : (Block.replaceAllUsesWith
      { b with inputs := b.inputs ++ [b.fresh], fresh := b.fresh + 1 }
      out0 b.fresh).nodes.find? (fun n => decide (n.id = nid)) = some node := by
    unfold Block.replaceAllUsesWith
    simp only []
    rw [find?_map_nodeId b.nodes
      (fun n => { n with inputs := n.inputs.map (fun w => if w = out0 then b.fresh else w) })
      (fun n => rfl) nid, hfind]
    simp only [Option.map_some']
    rw [map_subst_id node.inputs out0 b.fresh hself]
  have hpar := getParents_after_rewire b node out0 hself hinlt hnocycle
  have hFeq : foldOne b m nid out0 val =
      (Block.destroyNodeById
        ((getOnnxConstParentsToRemove b node).foldl
          (fun bb pn => bb.destroyNodeById pn.id)
          ((Block.replaceAllUsesWith
            { b with inputs := b.inputs ++ [b.fresh], fresh := b.fresh + 1 }
            out0 b.fresh).removeAllInputsOf nid)) nid,
       mapInsert m b.fresh (b.fresh, val),
       (getOnnxConstParentsToRemove b node).map Node.id ++ [nid]) := by
    unfold foldOne foldParentsOf
    simp only [hfind2, hpar]
  rw [hFeq] at hpe
  refine ⟨Block.destroyNodeById
      ((getOnnxConstParentsToRemove b node).foldl
        (fun bb pn => bb.destroyNodeById pn.id)
        ((Block.replaceAllUsesWith
          { b with inputs := b.inputs ++ [b.fresh], fresh := b.fresh + 1 }
          out0 b.fresh).removeAllInputsOf nid)) nid,
    mapInsert m b.fresh (b.fresh, val), ?_, ?_⟩
  · rw [hpe]
    simp [List.append_assoc]
  · intro x hx pn hprod hkind hcount hpnid
    have hkp : pn.kind ≠ NodeKind.primParam := by rw [hkind]; simp
    obtain ⟨hpnmem, hxout⟩ := producer?_mem_nodes hprod hkp
    have ho : out0 ∉ pn.inputs := hnocycle x hx pn hprod
    have hfrepl : { pn with
        inputs := pn.inputs.map (fun w => if w = out0 then b.fresh else w) } = pn := by
      simp [map_subst_id pn.inputs out0 b.fresh ho]
    have hmem2 : pn ∈ (Block.replaceAllUsesWith
        { b with inputs := b.inputs ++ [b.fresh], fresh := b.fresh + 1 }
        out0 b.fresh).nodes := by
      unfold Block.replaceAllUsesWith
      simp only []
      exact List.mem_map.mpr ⟨pn, hpnmem, hfrepl⟩
    have hmem3 : pn ∈ ((Block.replaceAllUsesWith
        { b with inputs := b.inputs ++ [b.fresh], fresh := b.fresh + 1 }
        out0 b.fresh).removeAllInputsOf nid).nodes := by
      unfold Block.removeAllInputsOf
      simp only []
      refine List.mem_map.mpr ⟨pn, hmem2, ?_⟩
      rw [if_neg hpnid]
    have hmem4 : pn ∈ ((getOnnxConstParentsToRemove b node).foldl
        (fun bb q => bb.destroyNodeById q.id)
        ((Block.replaceAllUsesWith
          { b with inputs := b.inputs ++ [b.fresh], fresh := b.fresh + 1 }
          out0 b.fresh).removeAllInputsOf nid)).nodes := by
      refine mem_foldl_destroy _ _ pn hmem3 ?_
      intro q hq hqid
      obtain ⟨y, hy, hprodq, hkq, hcq⟩ := mem_getParents_elim hq
      have hkq2 : q.kind ≠ NodeKind.primParam := by rw [hkq]; simp
      obtain ⟨hqmem, hyout⟩ := producer?_mem_nodes hprodq hkq2
      have hqpn : q = pn := List.inj_on_of_nodup_map hnodup hqmem hpnmem hqid
      subst hqpn
      have hxy : x = y :=
        length_le_one_mem_eq (hconst1 q hqmem hkind) hxout hyout
      rw [hxy] at hcount
      omega
    unfold Block.destroyNodeById
    simp only [List.mem_filter]
    exact ⟨hmem4, by simpa using hpnid⟩

def fixConstNodeA : Node :=
  { id := 1, kind := .onnxConstant, inputs := [], outputs := [11],
    attrs := [("value", .aTensor fixT23a)] }

def fixConstNodeB : Node :=
  { id := 2, kind := .onnxConstant, inputs := [], outputs := [12],
    attrs := [("value", .aTensor fixT23b)] }

def fixConcatNode : Node :=
  { id := 3, kind := .onnxConcat, inputs := [11, 12], outputs := [13],
    attrs := [("axis", .aInt 0)] }

def fixCatBlock : Block :=
  { inputs := [], nodes := [fixConstNodeA, fixConstNodeB, fixConcatNode],
    retInputs := [13], fresh := 20 }

def fixT43 : Tensor :=
  { dtype := .float32, sizes := [4, 3],
    data := [0, 1, 2, 3, 4, 5, 6, 7, 8, 9, 10, 11] }

/-- C7 witness: the Concat scenario — two [2,3] constants each used once
fold into a [4,3] constant; both source constant nodes are destroyed, in
order, before the Concat node. -/
theorem folded_node_destroys_exclusive_const_parents_witness :
    ∃ b5 m1, processNode 9 fixCatBlock [] [] 3 =
        .ok (b5, m1,
          [] ++ (getOnnxConstParentsToRemove fixCatBlock fixConcatNode).map Node.id ++ [3]) ∧
      ∀ x ∈ fixConcatNode.inputs, ∀ pn, fixCatBlock.producer? x = some pn →
        pn.kind = NodeKind.onnxConstant → 2 ≤ fixCatBlock.useCount x → pn.id ≠ 3 →
        pn ∈ b5.nodes := by
  refine folded_node_destroys_exclusive_const_parents 9 fixCatBlock [] [] 3
    fixConcatNode [fixT23a, fixT23b] fixT43 13 rfl rfl rfl (by simp) rfl rfl
    (by decide) (by decide) (by decide) ?_ ?_
  · intro x hx pn hp
    have hx2 : x = 11 ∨ x = 12 := by simpa [fixConcatNode] using hx
    rcases hx2 with rfl | rfl
    · have he : fixCatBlock.producer? 11 = some fixConstNodeA := rfl
      rw [he] at hp
      have := Option.some.inj hp
      subst this
      decide
    · have he : fixCatBlock.producer? 12 = some fixConstNodeB := rfl
      rw [he] at hp
      have := Option.some.inj hp
      subst this
      decide
  · intro nd hnd
    have h3 : nd = fixConstNodeA ∨ nd = fixConstNodeB ∨ nd = fixConcatNode := by
      simpa [fixCatBlock] using hnd
    rcases h3 with rfl | rfl | rfl <;> intro _ <;> decide

/- ---------------------------------------------------------------------
   C1 — parameter-map names after the pass.
--------------------------------------------------------------------- -/

theorem mapFind?_insert_isSome {α : Type} (m : List (Nat × α)) (k : Nat) (vv : α)
    (k2 : Nat) :
    (mapFind? (mapInsert m k vv) k2).isSome = true ↔
      k2 = k ∨ (mapFind? m k2).isSome = true := by
  induction m with
  | nil =>
    by_cases h : k2 = k <;> simp [mapInsert, mapFind?, h]
  | cons p rest ih =>
    obtain ⟨k0, v0⟩ := p
    unfold mapInsert
    by_cases h1 : k < k0
    · rw [if_pos h1]
      by_cases h2 : k2 = k
      · simp [mapFind?, h2]
      · by_cases h3 : k2 = k0
        · simp only [mapFind?, h2, h3, if_neg, if_true, if_false]
          simp [h2]
          split <;> simp
        · simp [mapFind?, h2, h3]
    · rw [if_neg h1]
      by_cases h2 : k = k0
      · rw [if_pos h2]
        subst h2
        by_cases h3 : k2 = k <;> simp [mapFind?, h3]
      · rw [if_neg h2]
        by_cases h3 : k2 = k0
        · subst h3
          have hk : ¬ k2 = k := fun hh => h2 hh.symm
          simp [mapFind?, hk]
        · simp [mapFind?, h3, ih]

theorem mem_mapInsert {α : Type} (m : List (Nat × α)) (k : Nat) (vv : α) :
    ∀ p ∈ mapInsert m k vv, p ∈ m ∨ p = (k, vv) := by
  induction m with
  | nil =>
    intro p hp
    simp [mapInsert] at hp
    right
    exact hp
  | cons q rest ih =>
    intro p hp
    unfold mapInsert at hp
    obtain ⟨k0, v0⟩ := q
    by_cases h1 : k < k0
    · rw [if_pos h1] at hp
      rcases List.mem_cons.mp hp with h | h
      · right; exact h
      · left; exact h
    · rw [if_neg h1] at hp
      by_cases h2 : k = k0
      · rw [if_pos h2] at hp
        left
        exact hp
      · rw [if_neg h2] at hp
        rcases List.mem_cons.mp hp with h | h
        · left; simp [h]
        · rcases ih p h with h3 | h3
          · left; simp [h3]
          · right; exact h3

theorem mapFind?_isSome_iff_mem {α : Type} (m : List (Nat × α)) (k : Nat) :
    (mapFind? m k).isSome = true ↔ ∃ vv, (k, vv) ∈ m := by
  induction m with
  | nil => simp [mapFind?]
  | cons p rest ih =>
    obtain ⟨k0, v0⟩ := p
    by_cases h : k = k0
    · subst h; simp [mapFind?]
    · simp [mapFind?, h, ih]

theorem mapFind?_filter_isSome (m : ValueToParamPairMap) (q : Nat × (Nat × Tensor) → Bool)
    (k : Nat) :
    (mapFind? (m.filter q) k).isSome = true ↔
      ∃ vv, (k, vv) ∈ m ∧ q (k, vv) = true := by
  rw [mapFind?_isSome_iff_mem]
  constructor
  · rintro ⟨vv, hv⟩
    rw [List.mem_filter] at hv
    exact ⟨vv, hv.1, hv.2⟩
  · rintro ⟨vv, hv1, hv2⟩
    exact ⟨vv, List.mem_filter.mpr ⟨hv1, hv2⟩⟩

/-- Classification of a successful loop-body run: either the node is
skipped with the whole state unchanged, or exactly the fold action is
applied. -/
theorem processNode_cases {v : Int} {b : Block} {m : ValueToParamPairMap}
    {tr : List Nat} {nid : Nat} {r : Block × ValueToParamPairMap × List Nat}
    (h : processNode v b m tr nid = .ok r) :
    r = (b, m, tr) ∨
    ∃ node out0 val, b.nodes.find? (fun n => decide (n.id = nid)) = some node ∧
      node.outputs.get? 0 = some out0 ∧
      r = ((foldOne b m nid out0 val).1, (foldOne b m nid out0 val).2.1,
        tr ++ (foldOne b m nid out0 val).2.2) := by
  unfold processNode at h
  split at h
  · exact Or.inl (Except.ok.inj h).symm
  · rename_i node hfind
    split at h
    · exact Or.inl (Except.ok.inj h).symm
    · split at h
      · exact Or.inl (Except.ok.inj h).symm
      · split at h
        · exact absurd h (by simp)
        · rename_i ts hvals
          split at h
          · exact Or.inl (Except.ok.inj h).symm
          · split at h
            · exact absurd h (by simp)
            · exact Or.inl (Except.ok.inj h).symm
            · rename_i val hrun
              split at h
              · exact absurd h (by simp)
              · rename_i out0 houts
                exact Or.inr ⟨node, out0, val, hfind, houts, (Except.ok.inj h).symm⟩

theorem foldl_destroy_inputs (l : List Node) :
    ∀ bb : Block, (l.foldl (fun b2 q => b2.destroyNodeById q.id) bb).inputs = bb.inputs := by
  induction l with
  | nil => intro bb; rfl
  | cons q rest ih => intro bb; exact ih (bb.destroyNodeById q.id)

theorem foldl_destroy_fresh (l : List Node) :
    ∀ bb : Block, (l.foldl (fun b2 q => b2.destroyNodeById q.id) bb).fresh = bb.fresh := by
  induction l with
  | nil => intro bb; rfl
  | cons q rest ih => intro bb; exact ih (bb.destroyNodeById q.id)

theorem foldOne_fields (b : Block) (m : ValueToParamPairMap) (nid out0 : Nat)
    (val : Tensor) :
    (foldOne b m nid out0 val).1.inputs = b.inputs ++ [b.fresh] ∧
    (foldOne b m nid out0 val).1.fresh = b.fresh + 1 ∧
    (foldOne b m nid out0 val).2.1 = mapInsert m b.fresh (b.fresh, val) := by
  refine ⟨?_, ?_, rfl⟩
  · exact foldl_destroy_inputs _ _
  · exact foldl_destroy_fresh _ _

theorem buildMap_aux (d : ParamMap) :
    ∀ (l : List Nat) (acc : ValueToParamPairMap) (k : Nat),
      (mapFind? (l.foldl (fun m input =>
        match mapFind? d input with
        | some t => mapInsert m input (input, t)
        | none => m) acc) k).isSome = true ↔
      ((mapFind? acc k).isSome = true ∨ (k ∈ l ∧ (mapFind? d k).isSome = true)) := by
  intro l
  induction l with
  | nil => simp
  | cons a rest ih =>
    intro acc k
    simp only [List.foldl_cons]
    rw [ih]
    cases e : mapFind? d a with
    | none =>
      by_cases hk : k = a
      · subst hk; simp [e]
      · simp [hk]
    | some t =>
      rw [mapFind?_insert_isSome]
      by_cases hk : k = a
      · subst hk; simp [e]
      · simp [hk]

theorem buildMap_shape (d : ParamMap) :
    ∀ (l : List Nat) (acc : ValueToParamPairMap),
      (∀ p ∈ acc, p.2.1 = p.1) →
      ∀ p ∈ l.foldl (fun m input =>
        match mapFind? d input with
        | some t => mapInsert m input (input, t)
        | none => m) acc, p.2.1 = p.1 := by
  intro l
  induction l with
  | nil => intro acc hacc; exact hacc
  | cons a rest ih =>
    intro acc hacc
    simp only [List.foldl_cons]
    refine ih _ ?_
    cases e : mapFind? d a with
    | none => exact hacc
    | some t =>
      intro p hp
      rcases mem_mapInsert acc a (a, t) p hp with h1 | h1
      · exact hacc p h1
      · rw [h1]

theorem buildParams_aux :
    ∀ (l : ValueToParamPairMap) (acc : ParamMap) (name : Nat),
      (mapFind? (l.foldl (fun dd p => mapInsert dd p.2.1 p.2.2) acc) name).isSome = true ↔
      ((mapFind? acc name).isSome = true ∨ ∃ p ∈ l, p.2.1 = name) := by
  intro l
  induction l with
  | nil => simp
  | cons q rest ih =>
    intro acc name
    simp only [List.foldl_cons]
    rw [ih, mapFind?_insert_isSome]
    constructor
    · rintro (⟨h | h⟩ | ⟨p, hp, h⟩)
      · exact Or.inr ⟨q, by simp, h.symm⟩
      · exact Or.inl h
      · exact Or.inr ⟨p, by simp [hp], h⟩
    · rintro (h | ⟨p, hp, h⟩)
      · exact Or.inl (Or.inr h)
      · rcases List.mem_cons.mp hp with h2 | h2
        · subst h2; exact Or.inl (Or.inl h.symm)
        · exact Or.inr ⟨p, h2, h⟩

/-- The invariant the main loop maintains for the map-consistency theorem:
the association holds exactly the original dictionary-matched inputs plus
the fold-created inputs; entry names are their keys; block inputs only grow
and remain below the fresh counter. -/
def C1Inv (b0 : Block) (d : ParamMap) (bb : Block) (mm : ValueToParamPairMap) : Prop :=
  (∀ k, (mapFind? mm k).isSome = true ↔
    ((k ∈ b0.inputs ∧ (mapFind? d k).isSome = true) ∨ (k ∈ bb.inputs ∧ k ∉ b0.inputs))) ∧
  (∀ p ∈ mm, p.2.1 = p.1) ∧
  (∀ x ∈ bb.inputs, x < bb.fresh) ∧
  (∀ x ∈ b0.inputs, x ∈ bb.inputs)

theorem C1Inv_processNode {v : Int} {b0 : Block} {d : ParamMap} {bb : Block}
    {mm : ValueToParamPairMap} {tr : List Nat} {nid : Nat}
    {r : Block × ValueToParamPairMap × List Nat}
    (hinv : C1Inv b0 d bb mm) (h : processNode v bb mm tr nid = .ok r) :
    C1Inv b0 d r.1 r.2.1 := by
  rcases processNode_cases h with heq | ⟨node, out0, val, _, _, heq⟩
  · rw [heq]; exact hinv
  · rw [heq]
    obtain ⟨hiff, hshape, hbound, hsub⟩ := hinv
    obtain ⟨hin, hfr, hm⟩ := foldOne_fields bb mm nid out0 val
    have hfnot : bb.fresh ∉ b0.inputs := fun hmem => by
      have := hbound bb.fresh (hsub bb.fresh hmem); omega
    refine ⟨?_, ?_, ?_, ?_⟩
    · intro k
      rw [hm, mapFind?_insert_isSome, hin]
      by_cases hk : k = bb.fresh
      · subst hk
        simp [hfnot]
      · simp only [hk, false_or]
        rw [hiff k]
        simp [List.mem_append, hk]
    · intro p hp
      rw [hm] at hp
      rcases mem_mapInsert mm bb.fresh (bb.fresh, val) p hp with h1 | h1
      · exact hshape p h1
      · rw [h1]
    · rw [hin, hfr]
      intro x hx
      rcases List.mem_append.mp hx with h1 | h1
      · have := hbound x h1; omega
      · simp at h1; omega
    · rw [hin]
      intro x hx
      exact List.mem_append_left _ (hsub x hx)

theorem C1Inv_foldLoop {v : Int} {b0 : Block} {d : ParamMap} :
    ∀ (ids : List Nat) (bb : Block) (mm : ValueToParamPairMap) (tr : List Nat)
      {r : Block × ValueToParamPairMap × List Nat},
      C1Inv b0 d bb mm → foldLoop v ids bb mm tr = .ok r →
      C1Inv b0 d r.1 r.2.1 := by
  intro ids
  induction ids with
  | nil =>
    intro bb mm tr r hinv h
    unfold foldLoop at h
    rw [← Except.ok.inj h]
    exact hinv
  | cons nid rest ih =>
    intro bb mm tr r hinv h
    unfold foldLoop at h
    cases e : processNode v bb mm tr nid with
    | error err => rw [e] at h; exact absurd h (by simp)
    | ok st =>
      obtain ⟨bX, mX, trX⟩ := st
      rw [e] at h
      exact ih bX mX trX (C1Inv_processNode hinv e) h

theorem C1Inv_init (b : Block) (d : ParamMap)
    (hfr : ∀ x ∈ b.inputs, x < b.fresh) :
    C1Inv b d b (buildValueToParamsMap b d) := by
  refine ⟨?_, ?_, hfr, fun x hx => hx⟩
  · intro k
    unfold buildValueToParamsMap
    rw [buildMap_aux]
    simp [mapFind?]
  · exact buildMap_shape d b.inputs [] (by simp)

theorem mapFind?_erase_isSome (bE : Block) (mE : ValueToParamPairMap) (k : Nat) :
    (mapFind? (eraseUnusedValuesFromMap bE mE) k).isSome = true ↔
      ((mapFind? mE k).isSome = true ∧ bE.hasUses k = true) := by
  unfold eraseUnusedValuesFromMap
  rw [mapFind?_filter_isSome]
  constructor
  · rintro ⟨vv, hmem, hq⟩
    exact ⟨(mapFind?_isSome_iff_mem mE k).mpr ⟨vv, hmem⟩, hq⟩
  · rintro ⟨h1, h2⟩
    obtain ⟨vv, hmem⟩ := (mapFind?_isSome_iff_mem mE k).mp h1
    exact ⟨vv, hmem, h2⟩

/-- Claim C1 (amended): after a supported-opset run of the pass, the
parameter-map names are exactly the debug names of block parameter inputs
that still have at least one use and are constant parameters — present in
the incoming map, or created by folding (not among the original block
inputs).  Genuine runtime inputs with uses stay out of the map. -/
theorem paramMap_names_after_pass (b : Block) (d : ParamMap) (v : Int)
    (hv : v = 9 ∨ v = 10) (hfr : ∀ x ∈ b.inputs, x < b.fresh)
    (b2 : Block) (d2 : ParamMap)
    (hres : ConstantFoldONNX b d v = .ok (b2, d2)) :
    ∀ name, (mapFind? d2 name).isSome = true ↔
      (name ∈ b2.inputs ∧ b2.hasUses name = true ∧
        ((mapFind? d name).isSome = true ∨ name ∉ b.inputs)) := by
  unfold ConstantFoldONNX at hres
  rw [if_neg (by rcases hv with rfl | rfl <;> simp)] at hres
  simp only [] at hres
  cases e : foldLoop v (b.nodes.map (fun n => n.id)) b (buildValueToParamsMap b d) [] with
  | error err => rw [e] at hres; exact absurd hres (by simp)
  | ok st =>
    obtain ⟨bE, mE, trE⟩ := st
    rw [e] at hres
    have hpair := Except.ok.inj hres
    have hb2 : b2 = eraseUnusedBlockInputs bE := (congrArg Prod.fst hpair).symm
    have hd2 : d2 = buildParamsMapFromValueToParamsMap (eraseUnusedValuesFromMap bE mE) :=
      (congrArg Prod.snd hpair).symm
    obtain ⟨hiff, hshape, hbound, hsub⟩ := C1Inv_foldLoop _ _ _ _ (C1Inv_init b d hfr) e
    intro name
    rw [hd2, hb2]
    unfold buildParamsMapFromValueToParamsMap
    rw [buildParams_aux]
    simp only [mapFind?, Option.isSome_none, Bool.false_eq_true, false_or]
    have hexists : (∃ p ∈ eraseUnusedValuesFromMap bE mE, p.2.1 = name) ↔
        (mapFind? (eraseUnusedValuesFromMap bE mE) name).isSome = true := by
      constructor
      · rintro ⟨p, hp, hpn⟩
        have hk : p.1 = name := by
          rw [← hpn]
          exact (hshape p (List.mem_filter.mp hp).1).symm
        rw [mapFind?_isSome_iff_mem]
        exact ⟨p.2, by rw [← hk]; exact hp⟩
      · intro h1
        obtain ⟨vv, hmem⟩ := (mapFind?_isSome_iff_mem _ name).mp h1
        exact ⟨(name, vv), hmem, hshape (name, vv) (List.mem_filter.mp hmem).1⟩
    rw [hexists, mapFind?_erase_isSome, hiff name]
    have hmemb2 : name ∈ (eraseUnusedBlockInputs bE).inputs ↔
        (name ∈ bE.inputs ∧ bE.hasUses name = true) := by
      unfold eraseUnusedBlockInputs
      simp [List.mem_filter]
    have huses : (eraseUnusedBlockInputs bE).hasUses name = bE.hasUses name := rfl
    rw [hmemb2, huses]
    constructor
    · rintro ⟨h1 | h1, h2⟩
      · exact ⟨⟨hsub name h1.1, h2⟩, h2, Or.inl h1.2⟩
      · exact ⟨⟨h1.1, h2⟩, h2, Or.inr h1.2⟩
    · rintro ⟨⟨h1, h2⟩, _, h3 | h3⟩
      · by_cases hA : name ∈ b.inputs
        · exact ⟨Or.inl ⟨hA, h3⟩, h2⟩
        · exact ⟨Or.inr ⟨h1, hA⟩, h2⟩
      · exact ⟨Or.inr ⟨h1, h3⟩, h2⟩

def fixRtBlock : Block := { inputs := [5], nodes := [], retInputs := [5], fresh := 6 }

/-- C1 counterexample: a block whose only input is a genuine runtime input
(absent from the parameter map) that is used by the return; after the pass
the map is still empty while the input is a used block parameter input, so
the two name sets differ. -/
theorem paramMap_names_counterexample :
    ConstantFoldONNX fixRtBlock [] 9 = .ok (fixRtBlock, ([] : ParamMap)) ∧
    5 ∈ fixRtBlock.inputs ∧ fixRtBlock.hasUses 5 = true ∧
    (mapFind? ([] : ParamMap) 5).isSome = false := by
  exact ⟨rfl, by decide, by decide, rfl⟩

/-- C1 amended-claim witness: the slice scenario run, instantiated at the
fold-created parameter name 3. -/
theorem paramMap_names_after_pass_witness :
    (mapFind? [(3, fixT44)] 3).isSome = true ↔
      (3 ∈ ({ inputs := [3], nodes := [], retInputs := [3], fresh := 4 } : Block).inputs ∧
        ({ inputs := [3], nodes := [], retInputs := [3], fresh := 4 } : Block).hasUses 3
          = true ∧
        ((mapFind? [(1, fixT46)] 3).isSome = true ∨ 3 ∉ fixSliceBlock.inputs)) :=
  paramMap_names_after_pass fixSliceBlock [(1, fixT46)] 9 (Or.inl rfl) (by decide)
    { inputs := [3], nodes := [], retInputs := [3], fresh := 4 } [(3, fixT44)] rfl 3

/- ---------------------------------------------------------------------
   C4 — idempotence of the pass.  Well-formedness of the IR graph
   (guaranteed by the C++ Graph/Block construction API): topological node
   order, unique single producers, fresh-counter bounds, unique node ids,
   single-output constant literals.
--------------------------------------------------------------------- -/

def outFlat (l : List Node) : List Nat :=
  (l.map Node.outputs).flatten

/-- Every node's inputs are already available (block inputs or outputs of
earlier nodes): the IR's topological-order invariant. -/
def TopoOK : List Nat → List Node → Prop
  | _, [] => True
  | avail, n :: rest => (∀ x ∈ n.inputs, x ∈ avail) ∧ TopoOK (avail ++ n.outputs) rest

def topoCheck : List Nat → List Node → Bool
  | _, [] => true
  | avail, n :: rest =>
    n.inputs.all (fun x => avail.contains x) && topoCheck (avail ++ n.outputs) rest

/-- Executable well-formedness of a block, as the C++ IR guarantees it. -/
def blockWF (b : Block) : Bool :=
  topoCheck b.inputs b.nodes &&
  nodupBool (b.inputs ++ outFlat b.nodes) &&
  b.inputs.all (fun x => decide (x < b.fresh)) &&
  b.retInputs.all (fun x => decide (x < b.fresh)) &&
  b.nodes.all (fun n => n.inputs.all (fun x => decide (x < b.fresh)) &&
    n.outputs.all (fun x => decide (x < b.fresh))) &&
  nodupBool (b.nodes.map Node.id) &&
  b.nodes.all (fun n =>
    !(decide (n.kind = NodeKind.onnxConstant)) || decide (n.outputs.length ≤ 1))

/-- A node the main loop leaves untouched, for a reason that persists. -/
def StableSkip (v : Int) (bb : Block) (mm : ValueToParamPairMap) (n : Node) : Prop :=
  n.outputs.length > 1 ∨
  (∃ x ∈ n.inputs, isConstant bb x mm = false) ∨
  n.inputs = [] ∨
  (areNodeInputsConstant bb n mm = true ∧
    ∃ ts, getValues bb n mm = .ok ts ∧ ts ≠ [] ∧
      runTorchBackendForOnnx n ts v = .ok none)

theorem nodupBool_iff (l : List Nat) : nodupBool l = true ↔ l.Nodup := by
  induction l with
  | nil => simp [nodupBool]
  | cons a r ih =>
    simp [nodupBool, ih, List.nodup_cons]

theorem topoCheck_iff : ∀ (avail : List Nat) (l : List Node),
    topoCheck avail l = true ↔ TopoOK avail l := by
  intro avail l
  induction l generalizing avail with
  | nil => simp [topoCheck, TopoOK]
  | cons n rest ih =>
    simp [topoCheck, TopoOK, ih]

theorem mapSorted_cons {α : Type} (k : Nat) (v : α) (m : List (Nat × α)) :
    mapSorted ((k, v) :: m) ↔ (∀ p ∈ m, k < p.1) ∧ mapSorted m := by
  induction m generalizing k v with
  | nil => simp [mapSorted]
  | cons q rest ih =>
    obtain ⟨k1, v1⟩ := q
    constructor
    · intro h
      obtain ⟨h1, h2⟩ := h
      have := (ih (k := k1) (v := v1)).mp h2
      refine ⟨?_, h2⟩
      intro p hp
      rcases List.mem_cons.mp hp with h3 | h3
      · rw [h3]; exact h1
      · exact lt_trans h1 (this.1 p h3)
    · intro ⟨h1, h2⟩
      exact ⟨h1 (k1, v1) (by simp), h2⟩

theorem mapFind?_none_of_lt {α : Type} (m : List (Nat × α)) (k : Nat)
    (h : ∀ p ∈ m, k < p.1) : mapFind? m k = none := by
  induction m with
  | nil => rfl
  | cons p rest ih =>
    obtain ⟨k0, v0⟩ := p
    have := h (k0, v0) (by simp)
    simp only [mapFind?, if_neg (by simp at this ⊢; omega : ¬ k = k0)]
    exact ih (fun q hq => h q (by simp [hq]))

theorem mapFind?_insert {α : Type} (m : List (Nat × α)) (k : Nat) (vv : α) (k2 : Nat)
    (hs : mapSorted m) :
    mapFind? (mapInsert m k vv) k2 =
      match mapFind? m k2 with
      | some w => some w
      | none => if k2 = k then some vv else none := by
  induction m with
  | nil =>
    by_cases h : k2 = k <;> simp [mapInsert, mapFind?, h]
  | cons p rest ih =>
    obtain ⟨k0, v0⟩ := p
    rw [mapSorted_cons] at hs
    unfold mapInsert
    by_cases h1 : k < k0
    · rw [if_pos h1]
      by_cases h2 : k2 = k
      · have hne : ¬ k = k0 := by omega
        have hrest : mapFind? rest k = none :=
          mapFind?_none_of_lt rest k (fun p hp => by have := hs.1 p hp; omega)
        simp [mapFind?, h2, hne, hrest]
      · by_cases h3 : k2 = k0
        · have hne2 : ¬ k0 = k := by omega
          simp [mapFind?, h2, h3, hne2]
        · simp only [mapFind?, if_neg h2, if_neg h3]
          cases mapFind? rest k2 <;> simp [h2]
    · rw [if_neg h1]
      by_cases h2 : k = k0
      · rw [if_pos h2]
        by_cases h3 : k2 = k0
        · simp [mapFind?, h3]
        · have hk : ¬ k2 = k := by omega
          simp only [mapFind?, if_neg h3, if_neg hk]
          cases mapFind? rest k2 <;> simp [hk]
      · rw [if_neg h2]
        by_cases h3 : k2 = k0
        · have hk : ¬ k2 = k := by omega
          simp [mapFind?, h3, hk]
        · simp [mapFind?, h3, ih hs.2]

theorem mapFind?_insert_ne {α : Type} (m : List (Nat × α)) (k : Nat) (vv : α)
    (k2 : Nat) (hs : mapSorted m) (h : k2 ≠ k) :
    mapFind? (mapInsert m k vv) k2 = mapFind? m k2 := by
  rw [mapFind?_insert m k vv k2 hs]
  cases mapFind? m k2 <;> simp [h]

theorem mapInsert_sorted {α : Type} (m : List (Nat × α)) (k : Nat) (vv : α)
    (h : mapSorted m) : mapSorted (mapInsert m k vv) := by
  induction m with
  | nil => trivial
  | cons p rest ih =>
    obtain ⟨k0, v0⟩ := p
    unfold mapInsert
    by_cases h1 : k < k0
    · rw [if_pos h1]
      rw [mapSorted_cons]
      refine ⟨?_, h⟩
      intro q hq
      rcases List.mem_cons.mp hq with h2 | h2
      · rw [h2]; exact h1
      · exact lt_trans h1 (((mapSorted_cons k0 v0 rest).mp h).1 q h2)
    · rw [if_neg h1]
      by_cases h2 : k = k0
      · rw [if_pos h2]; exact h
      · rw [if_neg h2]
        rw [mapSorted_cons] at h
        rw [mapSorted_cons]
        refine ⟨?_, ih h.2⟩
        intro q hq
        rcases mem_mapInsert rest k vv q hq with h3 | h3
        · exact h.1 q h3
        · rw [h3]; omega

theorem mapSorted_filter {α : Type} (q : Nat × α → Bool) (m : List (Nat × α))
    (h : mapSorted m) : mapSorted (m.filter q) := by
  induction m with
  | nil => trivial
  | cons p rest ih =>
    obtain ⟨k0, v0⟩ := p
    rw [mapSorted_cons] at h
    by_cases hq : q (k0, v0)
    · rw [List.filter_cons_of_pos hq, mapSorted_cons]
      exact ⟨fun r hr => h.1 r (List.mem_of_mem_filter hr), ih h.2⟩
    · rw [List.filter_cons_of_neg (by simpa using hq)]
      exact ih h.2

theorem mapSorted_keys_nodup {α : Type} (m : List (Nat × α)) (h : mapSorted m) :
    ∀ p ∈ m, ∀ q ∈ m, p.1 = q.1 → p = q := by
  induction m with
  | nil => simp
  | cons r rest ih =>
    obtain ⟨k0, v0⟩ := r
    rw [mapSorted_cons] at h
    intro p hp q hq hpq
    rcases List.mem_cons.mp hp with h1 | h1 <;> rcases List.mem_cons.mp hq with h2 | h2
    · rw [h1, h2]
    · exfalso
      have hlt := h.1 q h2
      rw [h1] at hpq
      have hk : k0 = q.1 := hpq
      omega
    · exfalso
      have hlt := h.1 p h1
      rw [h2] at hpq
      have hk : p.1 = k0 := hpq
      omega
    · exact ih h.2 p h1 q h2 hpq

theorem mapExt {α : Type} : ∀ (m1 m2 : List (Nat × α)), mapSorted m1 → mapSorted m2 →
    (∀ k, mapFind? m1 k = mapFind? m2 k) → m1 = m2 := by
  intro m1
  induction m1 with
  | nil =>
    intro m2 _ h2 hf
    cases m2 with
    | nil => rfl
    | cons q rest =>
      have := hf q.1
      simp [mapFind?] at this
  | cons p rest1 ih =>
    intro m2 h1 h2 hf
    obtain ⟨k0, v0⟩ := p
    cases m2 with
    | nil =>
      have := hf k0
      simp [mapFind?] at this
    | cons q rest2 =>
      obtain ⟨k1, v1⟩ := q
      rw [mapSorted_cons] at h1 h2
      have he : k0 = k1 := by
        rcases Nat.lt_trichotomy k0 k1 with h | h | h
        · have hthis := hf k0
          rw [show mapFind? ((k0, v0) :: rest1) k0 = some v0 by simp [mapFind?]] at hthis
          rw [show mapFind? ((k1, v1) :: rest2) k0 = mapFind? rest2 k0 by
            unfold mapFind?; rw [if_neg (by omega : ¬ k0 = k1)]; cases rest2 <;> rfl] at hthis
          obtain ⟨w, hw⟩ := (mapFind?_isSome_iff_mem rest2 k0).mp (by rw [← hthis]; rfl)
          have hlt := h2.1 (k0, w) hw
          have hk : k1 < k0 := hlt
          omega
        · exact h
        · have hthis := hf k1
          rw [show mapFind? ((k1, v1) :: rest2) k1 = some v1 by simp [mapFind?]] at hthis
          rw [show mapFind? ((k0, v0) :: rest1) k1 = mapFind? rest1 k1 by
            unfold mapFind?; rw [if_neg (by omega : ¬ k1 = k0)]; cases rest1 <;> rfl] at hthis
          obtain ⟨w, hw⟩ := (mapFind?_isSome_iff_mem rest1 k1).mp (by rw [hthis]; rfl)
          have hlt := h1.1 (k1, w) hw
          have hk : k0 < k1 := hlt
          omega
      subst he
      have hv : v0 = v1 := by
        have := hf k0
        simpa [mapFind?] using this
      subst hv
      refine congrArg _ (ih rest2 h1.2 h2.2 ?_)
      intro k
      by_cases hk : k = k0
      · subst hk
        cases e1 : mapFind? rest1 k with
        | none =>
          cases e2 : mapFind? rest2 k with
          | none => rfl
          | some w =>
            obtain ⟨w2, hw⟩ := (mapFind?_isSome_iff_mem rest2 k).mp (by simp [e2])
            have := h2.1 (k, w2) hw
            simp at this
        | some w =>
          obtain ⟨w2, hw⟩ := (mapFind?_isSome_iff_mem rest1 k).mp (by simp [e1])
          have := h1.1 (k, w2) hw
          simp at this
      · have := hf k
        simpa [mapFind?, hk] using this

theorem outFlat_append (l1 l2 : List Node) :
    outFlat (l1 ++ l2) = outFlat l1 ++ outFlat l2 := by
  simp [outFlat]

theorem mem_outFlat (x : Nat) (l : List Node) :
    x ∈ outFlat l ↔ ∃ n ∈ l, x ∈ n.outputs := by
  simp [outFlat]

theorem outFlat_sublist {l1 l2 : List Node} (h : l1.Sublist l2) :
    (outFlat l1).Sublist (outFlat l2) := by
  induction h with
  | slnil => exact List.Sublist.refl _
  | cons n h2 ih =>
    exact List.sublist_append_of_sublist_right ih
  | cons₂ n h2 ih =>
    exact List.Sublist.append_left ih _

/-- In a block whose flattened output list has no duplicates, each value has
at most one producing node. -/
theorem outFlat_unique : ∀ (l : List Node), (outFlat l).Nodup →
    ∀ n1 ∈ l, ∀ n2 ∈ l, ∀ x, x ∈ n1.outputs → x ∈ n2.outputs → n1 = n2 := by
  intro l
  induction l with
  | nil => simp
  | cons n rest ih =>
    intro hnd n1 h1 n2 h2 x hx1 hx2
    rw [show outFlat (n :: rest) = n.outputs ++ outFlat rest from rfl,
      List.nodup_append] at hnd
    rcases List.mem_cons.mp h1 with e1 | e1 <;> rcases List.mem_cons.mp h2 with e2 | e2
    · rw [e1, e2]
    · subst e1
      exact absurd ((mem_outFlat x rest).mpr ⟨n2, e2, hx2⟩) (fun hc => hnd.2.2 hx1 hc)
    · subst e2
      exact absurd ((mem_outFlat x rest).mpr ⟨n1, e1, hx1⟩) (fun hc => hnd.2.2 hx2 hc)
    · exact ih hnd.2.1 n1 e1 n2 e2 x hx1 hx2

theorem find?_of_unique {α : Type} (p : α → Bool) : ∀ (l : List α) (a : α), a ∈ l →
    p a = true → (∀ c ∈ l, p c = true → c = a) → l.find? p = some a := by
  intro l
  induction l with
  | nil => simp
  | cons c rest ih =>
    intro a ha hp huniq
    by_cases hc : p c
    · rw [List.find?_cons_of_pos _ hc]
      exact congrArg some (huniq c (by simp) hc)
    · rw [List.find?_cons_of_neg _ hc]
      rcases List.mem_cons.mp ha with e | e
      · subst e; exact absurd hp (by simp [hc])
      · exact ih a e hp (fun c2 hc2 => huniq c2 (by simp [hc2]))

theorem find?_eq_some_of_id_mem {l : List Node} {n : Node}
    (h : n ∈ l) (hnd : (l.map Node.id).Nodup) :
    l.find? (fun q => decide (q.id = n.id)) = some n := by
  refine find?_of_unique _ l n h (by simp) ?_
  intro c hc hpc
  exact List.inj_on_of_nodup_map hnd hc h (by simpa using hpc)

theorem natSum_append (l1 l2 : List Nat) :
    natSum (l1 ++ l2) = natSum l1 + natSum l2 := by
  induction l1 with
  | nil => simp [natSum]
  | cons a r ih => simp [natSum, ih]; omega

theorem natSum_ge_of_mem {l : List Nat} {a : Nat} (h : a ∈ l) : a ≤ natSum l := by
  induction l with
  | nil => cases h
  | cons c r ih =>
    rcases List.mem_cons.mp h with e | e
    · subst e; simp [natSum]
    · have := ih e; simp [natSum]; omega

theorem useCount_pos_of_use {b : Block} {n : Node} {x : Nat}
    (hn : n ∈ b.nodes) (hx : x ∈ n.inputs) : 1 ≤ b.useCount x := by
  unfold Block.useCount
  have h1 : 0 < n.inputs.countP (fun y => decide (y = x)) :=
    List.countP_pos_iff.mpr ⟨x, hx, by simp⟩
  have h2 : n.inputs.countP (fun y => decide (y = x)) ≤
      natSum (b.nodes.map (fun q => q.inputs.countP (fun y => decide (y = x)))) :=
    natSum_ge_of_mem (List.mem_map_of_mem _ hn)
  omega

theorem useCount_ge_two {b : Block} {l1 l2 : List Node} {n1 n2 : Node} {x : Nat}
    (hsplit : b.nodes = l1 ++ n1 :: l2) (hmem : n2 ∈ l1 ∨ n2 ∈ l2)
    (hx1 : x ∈ n1.inputs) (hx2 : x ∈ n2.inputs) : 2 ≤ b.useCount x := by
  unfold Block.useCount
  rw [hsplit]
  simp only [List.map_append, List.map_cons, natSum_append]
  have h1 : 0 < n1.inputs.countP (fun y => decide (y = x)) :=
    List.countP_pos_iff.mpr ⟨x, hx1, by simp⟩
  have h2 : 0 < n2.inputs.countP (fun y => decide (y = x)) :=
    List.countP_pos_iff.mpr ⟨x, hx2, by simp⟩
  rcases hmem with hm | hm
  · have h3 : n2.inputs.countP (fun y => decide (y = x)) ≤
        natSum (l1.map (fun q => q.inputs.countP (fun y => decide (y = x)))) :=
      natSum_ge_of_mem (List.mem_map_of_mem _ hm)
    simp only [natSum]
    omega
  · have h3 : n2.inputs.countP (fun y => decide (y = x)) ≤
        natSum (l2.map (fun q => q.inputs.countP (fun y => decide (y = x)))) :=
      natSum_ge_of_mem (List.mem_map_of_mem _ hm)
    simp only [natSum]
    omega

theorem getValuesAux_length (b : Block) (m : ValueToParamPairMap) :
    ∀ (l : List Nat) (ts : List Tensor), getValuesAux b m l = .ok ts →
      ts.length = l.length := by
  intro l
  induction l with
  | nil =>
    intro ts h
    cases (Except.ok.inj h)
    rfl
  | cons a rest ih =>
    intro ts h
    unfold getValuesAux at h
    cases e1 : resolveInput b m a with
    | error e => rw [e1] at h; exact absurd h (by simp)
    | ok t =>
      rw [e1] at h
      cases e2 : getValuesAux b m rest with
      | error e => rw [e2] at h; exact absurd h (by simp)
      | ok ts2 =>
        rw [e2] at h
        cases (Except.ok.inj h)
        simpa using ih ts2 e2

/-- A node satisfying a stable skip reason is left untouched by the loop
body. -/
theorem processNode_of_stableSkip {v : Int} {b : Block} {m : ValueToParamPairMap}
    {tr : List Nat} {nid : Nat} {node : Node}
    (hfind : b.nodes.find? (fun n => decide (n.id = nid)) = some node)
    (h : StableSkip v b m node) :
    processNode v b m tr nid = .ok (b, m, tr) := by
  refine processNode_skip hfind ?_
  rcases h with h1 | ⟨x, hx, hcx⟩ | h3 | ⟨_, ts, hts, _, hrun⟩
  · exact Or.inl h1
  · refine Or.inr (Or.inl ?_)
    have hall : ¬ (node.inputs.all (fun w => isConstant b w m) = true) := by
      rw [List.all_eq_true]
      push_neg
      exact ⟨x, hx, by simp [hcx]⟩
    unfold areNodeInputsConstant
    exact Bool.eq_false_iff.mpr hall
  · refine Or.inr (Or.inr ⟨[], ?_, Or.inl rfl⟩)
    unfold getValues
    rw [h3]
    rfl
  · exact Or.inr (Or.inr ⟨ts, hts, Or.inr hrun⟩)

/-- If every node of the block admits a stable skip reason, the whole main
loop is the identity on block, association and trace, for any id list. -/
theorem foldLoop_stable {v : Int} {bb : Block} {mm : ValueToParamPairMap}
    (h : ∀ n ∈ bb.nodes, StableSkip v bb mm n) :
    ∀ (ids : List Nat) (tr : List Nat), foldLoop v ids bb mm tr = .ok (bb, mm, tr) := by
  intro ids
  induction ids with
  | nil => intro tr; rfl
  | cons nid rest ih =>
    intro tr
    have hstep : processNode v bb mm tr nid = .ok (bb, mm, tr) := by
      cases e : bb.nodes.find? (fun n => decide (n.id = nid)) with
      | none => unfold processNode; rw [e]
      | some node =>
        exact processNode_of_stableSkip e (h node (List.mem_of_find?_eq_some e))
    unfold foldLoop
    rw [hstep]
    exact ih tr

/-- Exhaustive successful-outcome analysis of the loop body: either the node
is absent, or it is skipped for one of the four stable reasons, or it folds
with a single output. -/
theorem processNode_cases2 {v : Int} {b : Block} {m : ValueToParamPairMap}
    {tr : List Nat} {nid : Nat} {r : Block × ValueToParamPairMap × List Nat}
    (h : processNode v b m tr nid = .ok r) :
    (r = (b, m, tr) ∧
      (b.nodes.find? (fun n => decide (n.id = nid)) = none ∨
        ∃ node, b.nodes.find? (fun n => decide (n.id = nid)) = some node ∧
          StableSkip v b m node)) ∨
    (∃ node out0 val ts, b.nodes.find? (fun n => decide (n.id = nid)) = some node ∧
      node.outputs.length ≤ 1 ∧
      areNodeInputsConstant b node m = true ∧
      getValues b node m = .ok ts ∧ ts ≠ [] ∧
      runTorchBackendForOnnx node ts v = .ok (some val) ∧
      node.outputs.get? 0 = some out0 ∧
      r = ((foldOne b m nid out0 val).1, (foldOne b m nid out0 val).2.1,
        tr ++ (foldOne b m nid out0 val).2.2)) := by
  unfold processNode at h
  split at h
  · exact Or.inl ⟨(Except.ok.inj h).symm, Or.inl (by assumption)⟩
  · rename_i node hfind
    split at h
    · rename_i hlen
      exact Or.inl ⟨(Except.ok.inj h).symm, Or.inr ⟨node, hfind, Or.inl hlen⟩⟩
    · rename_i hlen
      split at h
      · rename_i hnc
        refine Or.inl ⟨(Except.ok.inj h).symm, Or.inr ⟨node, hfind, ?_⟩⟩
        have hfalse : areNodeInputsConstant b node m = false := by simpa using hnc
        have hnot : ¬ (node.inputs.all (fun w => isConstant b w m) = true) := by
          unfold areNodeInputsConstant at hfalse
          simp [hfalse]
        rw [List.all_eq_true] at hnot
        push_neg at hnot
        obtain ⟨x, hx, hpx⟩ := hnot
        exact Or.inr (Or.inl ⟨x, hx, by simpa using hpx⟩)
      · rename_i hnc
        have hconst : areNodeInputsConstant b node m = true := by simpa using hnc
        split at h
        · exact absurd h (by simp)
        · rename_i ts hvals
          split at h
          · rename_i hemp
            refine Or.inl ⟨(Except.ok.inj h).symm, Or.inr ⟨node, hfind, ?_⟩⟩
            have hts : ts = [] := List.isEmpty_iff.mp hemp
            subst hts
            have hlen0 := getValuesAux_length b m node.inputs [] hvals
            have hin : node.inputs = [] := List.length_eq_zero.mp hlen0.symm
            exact Or.inr (Or.inr (Or.inl hin))
          · rename_i hemp
            have hne : ts ≠ [] := by
              intro hh
              subst hh
              exact hemp rfl
            split at h
            · exact absurd h (by simp)
            · rename_i hrun
              exact Or.inl ⟨(Except.ok.inj h).symm, Or.inr ⟨node, hfind,
                Or.inr (Or.inr (Or.inr ⟨hconst, ts, hvals, hne, hrun⟩))⟩⟩
            · rename_i val hrun
              split at h
              · exact absurd h (by simp)
              · rename_i out0 houts
                exact Or.inr ⟨node, out0, val, ts, hfind, by omega, hconst, hvals, hne,
                  hrun, houts, (Except.ok.inj h).symm⟩

/-- The per-node action of Value::replaceAllUsesWith on inputs. -/
def substInput (o n2 : Nat) (n : Node) : Node :=
  { n with inputs := n.inputs.map (fun w => if w = o then n2 else w) }

theorem replaceAllUsesWith_nodes (b : Block) (o n2 : Nat) :
    (b.replaceAllUsesWith o n2).nodes = b.nodes.map (substInput o n2) := rfl

theorem substInput_id (o n2 : Nat) (n : Node) (h : o ∉ n.inputs) :
    substInput o n2 n = n := by
  unfold substInput
  rw [map_subst_id n.inputs o n2 h]

theorem map_substInput_id (o n2 : Nat) (l : List Node)
    (h : ∀ n ∈ l, o ∉ n.inputs) : l.map (substInput o n2) = l := by
  rw [show l.map (substInput o n2) = l ↔ l.map (substInput o n2) = l.map id by simp,
    List.map_inj_left]
  intro n hn
  simpa using substInput_id o n2 n (h n hn)

theorem destroyNodeById_nodes (b : Block) (nid : Nat) :
    (b.destroyNodeById nid).nodes = b.nodes.filter (fun n => decide (n.id ≠ nid)) := rfl

theorem foldl_destroy_nodes (ps : List Node) : ∀ (bb : Block),
    (ps.foldl (fun b2 q => b2.destroyNodeById q.id) bb).nodes =
      bb.nodes.filter (fun n => !((ps.map Node.id).contains n.id)) := by
  induction ps with
  | nil =>
    intro bb
    simp
  | cons q rest ih =>
    intro bb
    rw [List.foldl_cons, ih (bb.destroyNodeById q.id)]
    show (bb.nodes.filter (fun n => decide (n.id ≠ q.id))).filter _ = _
    rw [List.filter_filter]
    refine List.filter_congr ?_
    intro n _
    by_cases hq : n.id = q.id <;> simp [List.contains_cons, hq]

theorem ids_split_ne {done todo2 : List Node} {nr : Node} {l : List Node}
    (hsplit : l = done ++ nr :: todo2) (hids : (l.map Node.id).Nodup) :
    (∀ dn ∈ done, dn.id ≠ nr.id) ∧ (∀ tn ∈ todo2, tn.id ≠ nr.id) ∧
      (∀ dn ∈ done, ∀ tn ∈ todo2, dn.id ≠ tn.id) := by
  subst hsplit
  simp only [List.map_append, List.map_cons, List.nodup_append, List.nodup_cons] at hids
  obtain ⟨h1, ⟨h2a, h2b⟩, h3⟩ := hids
  refine ⟨?_, ?_, ?_⟩
  · intro dn hdn he
    exact h3 (List.mem_map_of_mem _ hdn) (by simp [he])
  · intro tn htn he
    exact h2a (he ▸ List.mem_map_of_mem _ htn)
  · intro dn hdn tn htn he
    exact h3 (List.mem_map_of_mem _ hdn) (by simp [List.mem_map_of_mem _ htn, he])

theorem block_nodup_parts {bb : Block} {done todo2 : List Node} {nr : Node} {out0 : Nat}
    (hsplit : bb.nodes = done ++ nr :: todo2)
    (hout : nr.outputs = [out0])
    (hnd : (bb.inputs ++ outFlat bb.nodes).Nodup) :
    out0 ∉ bb.inputs ∧ out0 ∉ outFlat done ∧ out0 ∉ outFlat todo2 := by
  rw [hsplit, outFlat_append,
    show outFlat (nr :: todo2) = nr.outputs ++ outFlat todo2 from rfl, hout] at hnd
  rw [List.nodup_append] at hnd
  obtain ⟨_, hnd2, hdisj⟩ := hnd
  rw [List.nodup_append] at hnd2
  obtain ⟨_, hnd3, hdisj2⟩ := hnd2
  rw [show ([out0] ++ outFlat todo2) = out0 :: outFlat todo2 from rfl,
    List.nodup_cons] at hnd3
  refine ⟨?_, ?_, hnd3.1⟩
  · intro hc
    exact hdisj hc (List.mem_append_right _ (by simp))
  · intro hc
    exact hdisj2 hc (by simp)

theorem producer_done_of_avail {bb : Block} {done todo2 : List Node} {nr : Node}
    (hsplit : bb.nodes = done ++ nr :: todo2)
    (hnd : (bb.inputs ++ outFlat bb.nodes).Nodup)
    {x : Nat} {pn : Node}
    (hprod : bb.producer? x = some pn)
    (hkind : pn.kind ≠ NodeKind.primParam)
    (havail : x ∈ bb.inputs ∨ ∃ dn ∈ done, x ∈ dn.outputs) :
    pn ∈ done := by
  have hm := producer?_mem_nodes hprod hkind
  rcases havail with h1 | ⟨dn, hdn, hx⟩
  · unfold Block.producer? at hprod
    rw [if_pos h1] at hprod
    have he : bb.paramNodeOf = pn := Option.some.inj hprod
    have hk : pn.kind = NodeKind.primParam := by rw [← he]; rfl
    exact absurd hk hkind
  · have hnodup : (outFlat bb.nodes).Nodup := (List.nodup_append.mp hnd).2.1
    have hdnb : dn ∈ bb.nodes := by
      rw [hsplit]; exact List.mem_append_left _ hdn
    have := outFlat_unique bb.nodes hnodup pn hm.1 dn hdnb x hm.2 hx
    rw [this]
    exact hdn

theorem parents_subset_done {bb : Block} {done todo2 : List Node} {nr : Node}
    (hsplit : bb.nodes = done ++ nr :: todo2)
    (hnd : (bb.inputs ++ outFlat bb.nodes).Nodup)
    (hnrIn : ∀ x ∈ nr.inputs, x ∈ bb.inputs ∨ ∃ dn ∈ done, x ∈ dn.outputs) :
    ∀ pn ∈ getOnnxConstParentsToRemove bb nr, pn ∈ done := by
  intro pn hpn
  obtain ⟨y, hy, hprod, hkind, _⟩ := mem_getParents_elim hpn
  exact producer_done_of_avail hsplit hnd hprod (by simp [hkind]) (hnrIn y hy)

theorem foldOne_eq (bb : Block) (mm : ValueToParamPairMap) (nid out0 : Nat)
    (val : Tensor) :
    foldOne bb mm nid out0 val =
      (((foldParentsOf
            (Block.replaceAllUsesWith
              { bb with inputs := bb.inputs ++ [bb.fresh], fresh := bb.fresh + 1 }
              out0 bb.fresh) nid).foldl
          (fun b2 q => b2.destroyNodeById q.id)
          ((Block.replaceAllUsesWith
              { bb with inputs := bb.inputs ++ [bb.fresh], fresh := bb.fresh + 1 }
              out0 bb.fresh).removeAllInputsOf nid)).destroyNodeById nid,
       mapInsert mm bb.fresh (bb.fresh, val),
       (foldParentsOf
          (Block.replaceAllUsesWith
            { bb with inputs := bb.inputs ++ [bb.fresh], fresh := bb.fresh + 1 }
            out0 bb.fresh) nid).map (fun pn => pn.id) ++ [nid]) := rfl

/-- Effect of one fold action on the node list, relative to a split of the
block into fully processed nodes, the folded node and the remaining tail:
the exclusively-owned constant parents (all of them processed earlier) and
the folded node disappear, the tail is rewired, and nothing else changes. -/
theorem foldOne_shape {bb : Block} {mm : ValueToParamPairMap} {nr : Node} {out0 : Nat}
    {val : Tensor} {done todo2 : List Node}
    (hsplit : bb.nodes = done ++ nr :: todo2)
    (hout : nr.outputs = [out0])
    (hnd : (bb.inputs ++ outFlat bb.nodes).Nodup)
    (hids : (bb.nodes.map Node.id).Nodup)
    (hvb : ∀ n ∈ bb.nodes, ∀ x ∈ n.inputs, x < bb.fresh)
    (hdoneIn : ∀ n ∈ done, ∀ x ∈ n.inputs, x ∈ bb.inputs ∨ ∃ dn ∈ done, x ∈ dn.outputs)
    (hnrIn : ∀ x ∈ nr.inputs, x ∈ bb.inputs ∨ ∃ dn ∈ done, x ∈ dn.outputs) :
    (foldOne bb mm nr.id out0 val).1.nodes =
      done.filter (fun dn =>
        !(((getOnnxConstParentsToRemove bb nr).map Node.id).contains dn.id)) ++
      todo2.map (substInput out0 bb.fresh) ∧
    (foldOne bb mm nr.id out0 val).2.2 =
      (getOnnxConstParentsToRemove bb nr).map Node.id ++ [nr.id] := by
  have hnrb : nr ∈ bb.nodes := by rw [hsplit]; exact List.mem_append_right _ (by simp)
  have hpos := block_nodup_parts hsplit hout hnd
  have hdout0 : ∀ n ∈ done, out0 ∉ n.inputs := by
    intro n hn hmem
    rcases hdoneIn n hn out0 hmem with h | ⟨dn, hdn, h⟩
    · exact hpos.1 h
    · exact hpos.2.1 ((mem_outFlat out0 done).mpr ⟨dn, hdn, h⟩)
  have hnrout0 : out0 ∉ nr.inputs := by
    intro hmem
    rcases hnrIn out0 hmem with h | ⟨dn, hdn, h⟩
    · exact hpos.1 h
    · exact hpos.2.1 ((mem_outFlat out0 done).mpr ⟨dn, hdn, h⟩)
  have hidcmp := ids_split_ne hsplit hids
  have h2nodes : (Block.replaceAllUsesWith
      { bb with inputs := bb.inputs ++ [bb.fresh], fresh := bb.fresh + 1 }
      out0 bb.fresh).nodes = done ++ nr :: todo2.map (substInput out0 bb.fresh) := by
    rw [replaceAllUsesWith_nodes]
    show bb.nodes.map (substInput out0 bb.fresh) = _
    rw [hsplit, List.map_append, List.map_cons,
      map_substInput_id out0 bb.fresh done hdout0, substInput_id out0 bb.fresh nr hnrout0]
  have hfind2 : (Block.replaceAllUsesWith
      { bb with inputs := bb.inputs ++ [bb.fresh], fresh := bb.fresh + 1 }
      out0 bb.fresh).nodes.find? (fun q => decide (q.id = nr.id)) = some nr := by
    rw [h2nodes]
    refine find?_eq_some_of_id_mem (by simp) ?_
    have hmapped : (todo2.map (substInput out0 bb.fresh)).map Node.id =
        todo2.map Node.id := by
      rw [List.map_map]
      exact List.map_congr_left (fun tn _ => rfl)
    have hidseq : (done ++ nr :: todo2.map (substInput out0 bb.fresh)).map Node.id =
        bb.nodes.map Node.id := by
      rw [hsplit]
      simp only [List.map_append, List.map_cons, hmapped]
    rw [hidseq]
    exact hids
  have hparents : foldParentsOf (Block.replaceAllUsesWith
      { bb with inputs := bb.inputs ++ [bb.fresh], fresh := bb.fresh + 1 }
      out0 bb.fresh) nr.id = getOnnxConstParentsToRemove bb nr := by
    unfold foldParentsOf
    rw [hfind2]
    refine getParents_after_rewire bb nr out0 hnrout0 (hvb nr hnrb) ?_
    intro x hx pn hprod
    by_cases hxin : x ∈ bb.inputs
    · unfold Block.producer? at hprod
      rw [if_pos hxin] at hprod
      have he : bb.paramNodeOf = pn := Option.some.inj hprod
      rw [← he]
      simp [Block.paramNodeOf]
    · unfold Block.producer? at hprod
      rw [if_neg hxin] at hprod
      have hpnb : pn ∈ bb.nodes := List.mem_of_find?_eq_some hprod
      have hxout : x ∈ pn.outputs := by simpa using List.find?_some hprod
      rcases hnrIn x hx with h | ⟨dn, hdn, h⟩
      · exact absurd h hxin
      · have hnodup : (outFlat bb.nodes).Nodup := (List.nodup_append.mp hnd).2.1
        have hdnb : dn ∈ bb.nodes := by rw [hsplit]; exact List.mem_append_left _ hdn
        have he := outFlat_unique bb.nodes hnodup pn hpnb dn hdnb x hxout h
        rw [he]
        exact hdout0 dn hdn
  have hsubdone : ∀ pn ∈ getOnnxConstParentsToRemove bb nr, pn ∈ done :=
    parents_subset_done hsplit hnd hnrIn
  have h3nodes : ((Block.replaceAllUsesWith
      { bb with inputs := bb.inputs ++ [bb.fresh], fresh := bb.fresh + 1 }
      out0 bb.fresh).removeAllInputsOf nr.id).nodes =
      done ++ { nr with inputs := [] } :: todo2.map (substInput out0 bb.fresh) := by
    unfold Block.removeAllInputsOf
    simp only []
    rw [h2nodes, List.map_append, List.map_cons]
    congr 1
    · rw [show done.map (fun n => if n.id = nr.id then { n with inputs := [] } else n) =
          done.map id from
        List.map_congr_left (fun dn hdn => by simp [if_neg (hidcmp.1 dn hdn)]),
        List.map_id]
    · congr 1
      · rw [if_pos rfl]
      · rw [show (todo2.map (substInput out0 bb.fresh)).map
              (fun n => if n.id = nr.id then { n with inputs := [] } else n) =
            (todo2.map (substInput out0 bb.fresh)).map id from
          List.map_congr_left (fun tn htn => by
            obtain ⟨t0, ht0, he⟩ := List.mem_map.mp htn
            rw [if_neg (by rw [← he]; exact hidcmp.2.1 t0 ht0)]
            rfl),
          List.map_id]
  have hnidnotp : ¬ (((getOnnxConstParentsToRemove bb nr).map Node.id).contains nr.id
      = true) := by
    intro hc
    rw [List.contains_eq_any_beq, List.any_eq_true] at hc
    obtain ⟨z, hz, hez⟩ := hc
    obtain ⟨pn, hpn, hpe⟩ := List.mem_map.mp hz
    have : pn.id = nr.id := by
      have : nr.id = z := by simpa using hez
      omega
    exact hidcmp.1 pn (hsubdone pn hpn) this
  have htodonotp : ∀ tn ∈ todo2.map (substInput out0 bb.fresh),
      ¬ (((getOnnxConstParentsToRemove bb nr).map Node.id).contains tn.id = true) := by
    intro tn htn hc
    rw [List.contains_eq_any_beq, List.any_eq_true] at hc
    obtain ⟨z, hz, hez⟩ := hc
    obtain ⟨pn, hpn, hpe⟩ := List.mem_map.mp hz
    obtain ⟨t0, ht0, hte⟩ := List.mem_map.mp htn
    have he1 : tn.id = z := by simpa using hez
    have he2 : tn.id = t0.id := by rw [← hte]; rfl
    exact hidcmp.2.2 pn (hsubdone pn hpn) t0 ht0 (by omega)
  have hA := congrArg (fun r : Block × ValueToParamPairMap × List Nat => r.1.nodes)
    (foldOne_eq bb mm nr.id out0 val)
  have hB := congrArg (fun r : Block × ValueToParamPairMap × List Nat => r.2.2)
    (foldOne_eq bb mm nr.id out0 val)
  simp only [] at hA hB
  rw [hparents] at hA hB
  refine ⟨?_, ?_⟩
  · have h4 : (done ++ { nr with inputs := [] } :: todo2.map (substInput out0 bb.fresh)).filter
        (fun n => !(((getOnnxConstParentsToRemove bb nr).map Node.id).contains n.id)) =
        done.filter
          (fun n => !(((getOnnxConstParentsToRemove bb nr).map Node.id).contains n.id)) ++
        { nr with inputs := [] } :: todo2.map (substInput out0 bb.fresh) := by
      rw [List.filter_append, List.filter_cons_of_pos (by simpa using hnidnotp)]
      refine congrArg (fun l => done.filter
        (fun n => !(((getOnnxConstParentsToRemove bb nr).map Node.id).contains n.id)) ++
        { nr with inputs := [] } :: l) ?_
      exact List.filter_eq_self.mpr (fun tn htn => by simpa using htodonotp tn htn)
    have h5 : (done.filter
          (fun n => !(((getOnnxConstParentsToRemove bb nr).map Node.id).contains n.id)) ++
        { nr with inputs := [] } :: todo2.map (substInput out0 bb.fresh)).filter
          (fun n => decide (n.id ≠ nr.id)) =
        done.filter
          (fun n => !(((getOnnxConstParentsToRemove bb nr).map Node.id).contains n.id)) ++
        todo2.map (substInput out0 bb.fresh) := by
      have h5a : (done.filter
            (fun n => !(((getOnnxConstParentsToRemove bb nr).map Node.id).contains n.id))).filter
            (fun n => decide (n.id ≠ nr.id)) =
          done.filter
            (fun n => !(((getOnnxConstParentsToRemove bb nr).map Node.id).contains n.id)) :=
        List.filter_eq_self.mpr (fun dn hdn => by
          simp [hidcmp.1 dn (List.mem_of_mem_filter hdn)])
      have h5b : (todo2.map (substInput out0 bb.fresh)).filter
            (fun n => decide (n.id ≠ nr.id)) = todo2.map (substInput out0 bb.fresh) :=
        List.filter_eq_self.mpr (fun tn htn => by
          obtain ⟨t0, ht0, hte⟩ := List.mem_map.mp htn
          have : tn.id = t0.id := by rw [← hte]; rfl
          simp [this, hidcmp.2.1 t0 ht0])
      rw [List.filter_append, List.filter_cons_of_neg (by simp), h5a, h5b]
    rw [hA, destroyNodeById_nodes, foldl_destroy_nodes, h3nodes, h4, h5]
  · rw [hB]

/-- After a fold step, constant-ness and resolution of any value consumed by
an already-processed node are unchanged: the value is below the fresh
counter, its producer (a block input or an earlier node) survives the
destructions, and the association changes only at the fresh key. -/
theorem lookup_preserved {bb : Block} {mm : ValueToParamPairMap} {nr : Node} {out0 : Nat}
    {val : Tensor} {done todo2 : List Node}
    (hsplit : bb.nodes = done ++ nr :: todo2)
    (hout : nr.outputs = [out0])
    (hnd : (bb.inputs ++ outFlat bb.nodes).Nodup)
    (hids : (bb.nodes.map Node.id).Nodup)
    (hvb : ∀ n2 ∈ bb.nodes, ∀ y ∈ n2.inputs, y < bb.fresh)
    (hdoneIn : ∀ n2 ∈ done, ∀ y ∈ n2.inputs, y ∈ bb.inputs ∨ ∃ dn ∈ done, y ∈ dn.outputs)
    (hnrIn : ∀ y ∈ nr.inputs, y ∈ bb.inputs ∨ ∃ dn ∈ done, y ∈ dn.outputs)
    (hconst1 : ∀ n2 ∈ bb.nodes, n2.kind = NodeKind.onnxConstant → n2.outputs.length ≤ 1)
    (hsorted : mapSorted mm)
    {n : Node} {x : Nat} (hn : n ∈ done) (hx : x ∈ n.inputs) :
    isConstant (foldOne bb mm nr.id out0 val).1 x (foldOne bb mm nr.id out0 val).2.1 =
      isConstant bb x mm ∧
    resolveInput (foldOne bb mm nr.id out0 val).1 (foldOne bb mm nr.id out0 val).2.1 x =
      resolveInput bb mm x := by
  have hidcmp := ids_split_ne hsplit hids
  have hnb : n ∈ bb.nodes := by rw [hsplit]; exact List.mem_append_left _ hn
  have hxlt : x < bb.fresh := hvb n hnb x hx
  have hmF : (foldOne bb mm nr.id out0 val).2.1 = mapInsert mm bb.fresh (bb.fresh, val) :=
    rfl
  have hmapf : mapFind? (foldOne bb mm nr.id out0 val).2.1 x = mapFind? mm x := by
    rw [hmF]
    exact mapFind?_insert_ne mm bb.fresh (bb.fresh, val) x hsorted (by omega)
  have hinputsF : (foldOne bb mm nr.id out0 val).1.inputs = bb.inputs ++ [bb.fresh] :=
    (foldOne_fields bb mm nr.id out0 val).1
  have hnodesF :=
    (@foldOne_shape bb mm nr out0 val done todo2 hsplit hout hnd hids hvb hdoneIn hnrIn).1
  by_cases hxin : x ∈ bb.inputs
  · have hprodB : bb.producer? x = some bb.paramNodeOf := by
      unfold Block.producer?
      rw [if_pos hxin]
    have hprodF : (foldOne bb mm nr.id out0 val).1.producer? x =
        some (foldOne bb mm nr.id out0 val).1.paramNodeOf := by
      unfold Block.producer?
      rw [if_pos (by rw [hinputsF]; exact List.mem_append_left _ hxin)]
    constructor
    · unfold isConstant
      rw [hprodB, hprodF]
      simp [Block.paramNodeOf, Node.mustBeNone, Node.kindOf?, Node.findAttr?, hmapf]
    · unfold resolveInput
      rw [hprodB, hprodF]
      show (match mapFind? (foldOne bb mm nr.id out0 val).2.1 x with
        | some p => Except.ok p.2
        | none =>
          Except.error "getValues: Input value not found amongst constant parameters.") = _
      rw [hmapf]
      rfl
  · rcases hdoneIn n hn x hx with h | ⟨dn, hdn, hxdn⟩
    · exact absurd h hxin
    · have hdnb : dn ∈ bb.nodes := by rw [hsplit]; exact List.mem_append_left _ hdn
      have hofnd : (outFlat bb.nodes).Nodup := (List.nodup_append.mp hnd).2.1
      have huniq : ∀ c ∈ bb.nodes, x ∈ c.outputs → c = dn := fun c hc hxc =>
        outFlat_unique bb.nodes hofnd c hc dn hdnb x hxc hxdn
      have hfindB : bb.nodes.find? (fun c => decide (x ∈ c.outputs)) = some dn :=
        find?_of_unique _ bb.nodes dn hdnb (by simp [hxdn])
          (fun c hc hpc => huniq c hc (by simpa using hpc))
      have hdnnp : dn ∉ getOnnxConstParentsToRemove bb nr := by
        intro hdp
        obtain ⟨y, hy, hprod, hkindC, hcount⟩ := mem_getParents_elim hdp
        have hm := producer?_mem_nodes hprod (by simp [hkindC])
        have hxy : x = y :=
          length_le_one_mem_eq (hconst1 dn hdnb hkindC) hxdn hm.2
        have h2 : 2 ≤ bb.useCount y := by
          rw [← hxy]
          exact useCount_ge_two hsplit (Or.inl hn) (hxy ▸ hy  : x ∈ nr.inputs) hx
        omega
      have hdnidP :
          ¬ ((((getOnnxConstParentsToRemove bb nr).map Node.id).contains dn.id) = true) := by
        intro hc
        rw [List.contains_eq_any_beq, List.any_eq_true] at hc
        obtain ⟨z, hz, hez⟩ := hc
        obtain ⟨pn, hpn, hpe⟩ := List.mem_map.mp hz
        have hpd : pn ∈ done :=
          parents_subset_done hsplit hnd hnrIn pn hpn
        have hpnb : pn ∈ bb.nodes := by
          rw [hsplit]; exact List.mem_append_left _ hpd
        have hide : dn.id = pn.id := by
          have : dn.id = z := by simpa using hez
          omega
        have : pn = dn := List.inj_on_of_nodup_map hids hpnb hdnb hide.symm
        exact hdnnp (this ▸ hpn)
      have hdnF : dn ∈ (foldOne bb mm nr.id out0 val).1.nodes := by
        rw [hnodesF]
        exact List.mem_append_left _ (List.mem_filter.mpr ⟨hdn, by simpa using hdnidP⟩)
      have hfindF : (foldOne bb mm nr.id out0 val).1.nodes.find?
          (fun c => decide (x ∈ c.outputs)) = some dn := by
        refine find?_of_unique _ _ dn hdnF (by simp [hxdn]) ?_
        intro c hc hpc
        have hxc : x ∈ c.outputs := by simpa using hpc
        rw [hnodesF] at hc
        rcases List.mem_append.mp hc with h1 | h1
        · exact huniq c (by
            rw [hsplit]
            exact List.mem_append_left _ (List.mem_of_mem_filter h1)) hxc
        · obtain ⟨tn, htn, hte⟩ := List.mem_map.mp h1
          have htb : tn ∈ bb.nodes := by
            rw [hsplit]
            exact List.mem_append_right _ (by simp [htn])
          have hxt : x ∈ tn.outputs := by rw [← hte] at hxc; exact hxc
          have : tn = dn := huniq tn htb hxt
          exact absurd (congrArg Node.id this) (hidcmp.2.2 dn hdn tn htn).symm
      have hxninF : x ∉ (foldOne bb mm nr.id out0 val).1.inputs := by
        rw [hinputsF]
        intro hc
        rcases List.mem_append.mp hc with h1 | h1
        · exact hxin h1
        · simp at h1; omega
      have hprodB : bb.producer? x = some dn := by
        unfold Block.producer?
        rw [if_neg hxin]
        exact hfindB
      have hprodF : (foldOne bb mm nr.id out0 val).1.producer? x = some dn := by
        unfold Block.producer?
        rw [if_neg hxninF]
        exact hfindF
      constructor
      · unfold isConstant
        rw [hprodB, hprodF, hmapf]
      · simp only [resolveInput, hprodB, hprodF, hmapf]

theorem all_congr_list {α : Type} (xs : List α) (f g : α → Bool)
    (h : ∀ x ∈ xs, f x = g x) : xs.all f = xs.all g := by
  induction xs with
  | nil => rfl
  | cons c r ih =>
    rw [List.all_cons, List.all_cons, h c (List.mem_cons_self c r),
      ih (fun x hx => h x (List.mem_cons_of_mem c hx))]

theorem getValuesAux_congr {bA bB : Block} {mA mB : ValueToParamPairMap} :
    ∀ (l : List Nat), (∀ x ∈ l, resolveInput bB mB x = resolveInput bA mA x) →
      getValuesAux bB mB l = getValuesAux bA mA l := by
  intro l
  induction l with
  | nil => intro _; rfl
  | cons a r ih =>
    intro h
    unfold getValuesAux
    rw [h a (by simp), ih (fun x hx => h x (by simp [hx]))]

/-- A stable skip reason survives any state change that preserves
constant-ness and resolution of the node's inputs. -/
theorem StableSkip_transfer {v : Int} {bbA bbB : Block}
    {mmA mmB : ValueToParamPairMap} {n : Node}
    (hpt : ∀ x ∈ n.inputs, isConstant bbB x mmB = isConstant bbA x mmA ∧
      resolveInput bbB mmB x = resolveInput bbA mmA x)
    (h : StableSkip v bbA mmA n) : StableSkip v bbB mmB n := by
  rcases h with h1 | ⟨x, hx, hcx⟩ | h3 | ⟨hconst, ts, hts, hne, hrun⟩
  · exact Or.inl h1
  · exact Or.inr (Or.inl ⟨x, hx, by rw [(hpt x hx).1, hcx]⟩)
  · exact Or.inr (Or.inr (Or.inl h3))
  · refine Or.inr (Or.inr (Or.inr ⟨?_, ts, ?_, hne, hrun⟩))
    · unfold areNodeInputsConstant at hconst ⊢
      rw [all_congr_list n.inputs _ _ (fun x hx => (hpt x hx).1)]
      exact hconst
    · unfold getValues at hts ⊢
      rw [getValuesAux_congr n.inputs (fun x hx => (hpt x hx).2)]
      exact hts

theorem outFlat_map_subst (o n2 : Nat) (l : List Node) :
    outFlat (l.map (substInput o n2)) = outFlat l := by
  unfold outFlat
  rw [List.map_map]
  rfl

theorem ids_map_subst (o n2 : Nat) (l : List Node) :
    (l.map (substInput o n2)).map Node.id = l.map Node.id := by
  rw [List.map_map]
  rfl

/-- Topological availability is preserved by rewiring one value, as long as
the substitute is available and every still-used available value stays
available. -/
theorem TopoOK_map_subst (o n2 : Nat) : ∀ (l : List Node) (avail1 avail2 : List Nat),
    (∀ x, (∃ n ∈ l, x ∈ n.inputs) → x ∈ avail1 → x ≠ o → x ∈ avail2) →
    n2 ∈ avail2 → TopoOK avail1 l → TopoOK avail2 (l.map (substInput o n2)) := by
  intro l
  induction l with
  | nil => intro _ _ _ _ _; trivial
  | cons n rest ih =>
    intro avail1 avail2 hcond hn2 htopo
    obtain ⟨hhead, htail⟩ := htopo
    refine ⟨?_, ?_⟩
    · intro x hx
      unfold substInput at hx
      simp only [] at hx
      obtain ⟨w, hw, hwe⟩ := List.mem_map.mp hx
      by_cases hwo : w = o
      · rw [hwo] at hwe
        simp only [if_pos rfl] at hwe
        rw [← hwe]
        exact hn2
      · rw [if_neg hwo] at hwe
        rw [← hwe]
        exact hcond w ⟨n, by simp, hw⟩ (hhead w hw) hwo
    · have hout : (substInput o n2 n).outputs = n.outputs := rfl
      rw [hout]
      refine ih (avail1 ++ n.outputs) (avail2 ++ n.outputs) ?_ ?_ htail
      · intro x hcons hx hxo
        rcases List.mem_append.mp hx with h1 | h1
        · obtain ⟨w, hw, hwi⟩ := hcons
          exact List.mem_append_left _ (hcond x ⟨w, by simp [hw], hwi⟩ h1 hxo)
        · exact List.mem_append_right _ h1
      · exact List.mem_append_left _ hn2

theorem outputs_eq_single {l : List Nat} {a : Nat}
    (h0 : l.get? 0 = some a) (hlen : l.length ≤ 1) : l = [a] := by
  cases l with
  | nil => exact absurd h0 (by simp)
  | cons c r =>
    cases r with
    | nil =>
      have : c = a := by simpa using h0
      rw [this]
    | cons d r2 => simp at hlen

/-- An earlier constant producer that some other surviving node still uses is
never in the exclusively-owned parents snapshot of the folded node. -/
theorem producer_survives {bb : Block} {done todo2 : List Node} {nr : Node}
    (hsplit : bb.nodes = done ++ nr :: todo2)
    (hids : (bb.nodes.map Node.id).Nodup)
    (hnd : (bb.inputs ++ outFlat bb.nodes).Nodup)
    (hnrIn : ∀ y ∈ nr.inputs, y ∈ bb.inputs ∨ ∃ dn ∈ done, y ∈ dn.outputs)
    (hconst1 : ∀ n2 ∈ bb.nodes, n2.kind = NodeKind.onnxConstant → n2.outputs.length ≤ 1)
    {n dn : Node} {x : Nat} (hmemOther : n ∈ done ∨ n ∈ todo2) (hx : x ∈ n.inputs)
    (hdn : dn ∈ done) (hxdn : x ∈ dn.outputs) :
    ¬ ((((getOnnxConstParentsToRemove bb nr).map Node.id).contains dn.id) = true) := by
  have hdnb : dn ∈ bb.nodes := by rw [hsplit]; exact List.mem_append_left _ hdn
  have hdnnp : dn ∉ getOnnxConstParentsToRemove bb nr := by
    intro hdp
    obtain ⟨y, hy, hprod, hkindC, hcount⟩ := mem_getParents_elim hdp
    have hm := producer?_mem_nodes hprod (by simp [hkindC])
    have hxy : x = y :=
      length_le_one_mem_eq (hconst1 dn hdnb hkindC) hxdn hm.2
    have h2 : 2 ≤ bb.useCount y := by
      rw [← hxy]
      exact useCount_ge_two hsplit hmemOther (hxy ▸ hy : x ∈ nr.inputs) hx
    omega
  intro hc
  rw [List.contains_eq_any_beq, List.any_eq_true] at hc
  obtain ⟨z, hz, hez⟩ := hc
  obtain ⟨pn, hpn, hpe⟩ := List.mem_map.mp hz
  have hpd : pn ∈ done := parents_subset_done hsplit hnd hnrIn pn hpn
  have hpnb : pn ∈ bb.nodes := by rw [hsplit]; exact List.mem_append_left _ hpd
  have hide : dn.id = pn.id := by
    have : dn.id = z := by simpa using hez
    omega
  have : pn = dn := List.inj_on_of_nodup_map hids hpnb hdnb hide.symm
  exact hdnnp (this ▸ hpn)

/-- The main-loop invariant for the idempotence theorem: the block splits
into already-visited survivors (each stably skippable, with inputs produced
earlier) and the still-to-visit tail matching the remaining ids, together
with the graph well-formedness and association bookkeeping the IR
guarantees. -/
def LoopInv (v : Int) (bb : Block) (mm : ValueToParamPairMap) (rids : List Nat) : Prop :=
  ∃ done todo2,
    bb.nodes = done ++ todo2 ∧
    rids = todo2.map Node.id ∧
    (∀ n ∈ done, StableSkip v bb mm n) ∧
    (∀ n ∈ done, ∀ x ∈ n.inputs, x ∈ bb.inputs ∨ ∃ dn ∈ done, x ∈ dn.outputs) ∧
    TopoOK (bb.inputs ++ outFlat done) todo2 ∧
    (bb.inputs ++ outFlat bb.nodes).Nodup ∧
    (∀ x ∈ bb.inputs, x < bb.fresh) ∧
    (∀ n ∈ bb.nodes, (∀ x ∈ n.inputs, x < bb.fresh) ∧ ∀ x ∈ n.outputs, x < bb.fresh) ∧
    (bb.nodes.map Node.id).Nodup ∧
    (∀ n ∈ bb.nodes, n.kind = NodeKind.onnxConstant → n.outputs.length ≤ 1) ∧
    mapSorted mm ∧
    (∀ p ∈ mm, p.2.1 = p.1) ∧
    (∀ p ∈ mm, p.1 ∈ bb.inputs)

theorem LoopInv_step {v : Int} {bb : Block} {mm : ValueToParamPairMap}
    {tr : List Nat} {nid : Nat} {rids : List Nat}
    {r : Block × ValueToParamPairMap × List Nat}
    (hinv : LoopInv v bb mm (nid :: rids))
    (h : processNode v bb mm tr nid = .ok r) :
    LoopInv v r.1 r.2.1 rids := by
  obtain ⟨done, todo2, hsplit, hrids, hstab, hdoneIn, htopo, hnd, hvbi, hvbn, hids,
    hconst1, hsorted, hshape, hkeys⟩ := hinv
  cases todo2 with
  | nil => exact absurd hrids (by simp)
  | cons nr todo2 =>
    rw [List.map_cons] at hrids
    obtain ⟨hnid, hrids2⟩ := List.cons.inj hrids
    subst hnid
    have hnrb : nr ∈ bb.nodes := by
      rw [hsplit]; exact List.mem_append_right _ (by simp)
    have hfind : bb.nodes.find? (fun q => decide (q.id = nr.id)) = some nr :=
      find?_eq_some_of_id_mem hnrb hids
    have hnrIn : ∀ y ∈ nr.inputs, y ∈ bb.inputs ∨ ∃ dn ∈ done, y ∈ dn.outputs := by
      intro y hy
      rcases List.mem_append.mp (htopo.1 y hy) with h1 | h1
      · exact Or.inl h1
      · exact Or.inr ((mem_outFlat y done).mp h1)
    rcases processNode_cases2 h with ⟨hr, hsk⟩ | ⟨node, out0, val, ts, hfind2, hlen,
      hconst, hvals, hne, hrun, houts, hr⟩
    · -- skip case: the node joins the processed prefix unchanged
      have hr1 : r.1 = bb := by rw [hr]
      have hr2 : r.2.1 = mm := by rw [hr]
      rw [hr1, hr2]
      have hskip : StableSkip v bb mm nr := by
        rcases hsk with h1 | ⟨node, hf, hs⟩
        · rw [hfind] at h1; exact absurd h1 (by simp)
        · rw [hfind] at hf
          rw [Option.some.inj hf]
          exact hs
      refine ⟨done ++ [nr], todo2, ?_, hrids2, ?_, ?_, ?_, hnd, hvbi, hvbn, hids,
        hconst1, hsorted, hshape, hkeys⟩
      · rw [hsplit]; simp
      · intro n hn
        rcases List.mem_append.mp hn with h1 | h1
        · exact hstab n h1
        · rw [show n = nr by simpa using h1]
          exact hskip
      · intro n hn x hx
        rcases List.mem_append.mp hn with h1 | h1
        · rcases hdoneIn n h1 x hx with h2 | ⟨dn, hdn, h2⟩
          · exact Or.inl h2
          · exact Or.inr ⟨dn, List.mem_append_left _ hdn, h2⟩
        · rw [show n = nr by simpa using h1] at hx
          rcases hnrIn x hx with h2 | ⟨dn, hdn, h2⟩
          · exact Or.inl h2
          · exact Or.inr ⟨dn, List.mem_append_left _ hdn, h2⟩
      · have he : bb.inputs ++ outFlat (done ++ [nr]) =
            (bb.inputs ++ outFlat done) ++ nr.outputs := by
          simp [outFlat_append, outFlat]
        rw [he]
        exact htopo.2
    · -- fold case
      have hnode : node = nr := by
        rw [hfind] at hfind2
        exact (Option.some.inj hfind2).symm
      subst hnode
      have hout : node.outputs = [out0] := outputs_eq_single houts hlen
      have hr1 : r.1 = (foldOne bb mm node.id out0 val).1 := by rw [hr]
      have hr2 : r.2.1 = (foldOne bb mm node.id out0 val).2.1 := by rw [hr]
      rw [hr1, hr2]
      have hvb : ∀ n2 ∈ bb.nodes, ∀ y ∈ n2.inputs, y < bb.fresh :=
        fun n2 h2 => (hvbn n2 h2).1
      have hshapeF := @foldOne_shape bb mm node out0 val done todo2
        hsplit hout hnd hids hvb hdoneIn hnrIn
      have hif := foldOne_fields bb mm node.id out0 val
      have hifr : (foldOne bb mm node.id out0 val).1.fresh = bb.fresh + 1 := hif.2.1
      have hsurv : ∀ {n2 dn : Node} {x : Nat}, (n2 ∈ done ∨ n2 ∈ todo2) → x ∈ n2.inputs →
          dn ∈ done → x ∈ dn.outputs →
          dn ∈ done.filter (fun q =>
            !(((getOnnxConstParentsToRemove bb node).map Node.id).contains q.id)) := by
        intro n2 dn x hmem hx hdn hxdn
        exact List.mem_filter.mpr ⟨hdn, by
          simpa using producer_survives hsplit hids hnd hnrIn hconst1 hmem hx hdn hxdn⟩
      refine ⟨done.filter (fun q =>
          !(((getOnnxConstParentsToRemove bb node).map Node.id).contains q.id)),
        todo2.map (substInput out0 bb.fresh), hshapeF.1, ?_, ?_, ?_, ?_, ?_, ?_, ?_,
        ?_, ?_, ?_, ?_, ?_⟩
      · rw [hrids2, ids_map_subst]
      · intro n hn
        have hnd2 : n ∈ done := List.mem_of_mem_filter hn
        refine StableSkip_transfer ?_ (hstab n hnd2)
        intro x hx
        exact lookup_preserved hsplit hout hnd hids hvb hdoneIn hnrIn hconst1 hsorted
          hnd2 hx
      · intro n hn x hx
        have hnd2 : n ∈ done := List.mem_of_mem_filter hn
        rcases hdoneIn n hnd2 x hx with h1 | ⟨dn, hdn, h1⟩
        · rw [hif.1]
          exact Or.inl (List.mem_append_left _ h1)
        · exact Or.inr ⟨dn, hsurv (Or.inl hnd2) hx hdn h1, h1⟩
      · have htail : TopoOK ((bb.inputs ++ outFlat done) ++ [out0]) todo2 := by
          have := htopo.2
          rw [hout] at this
          exact this
        rw [hif.1]
        refine TopoOK_map_subst out0 bb.fresh todo2 _ _ ?_ ?_ htail
        · intro x hcons hx hxo
          obtain ⟨tn, htn, hxi⟩ := hcons
          rcases List.mem_append.mp hx with h1 | h1
          · rcases List.mem_append.mp h1 with h2 | h2
            · exact List.mem_append_left _ (List.mem_append_left _ h2)
            · obtain ⟨dn, hdn, hxdn⟩ := (mem_outFlat x done).mp h2
              refine List.mem_append_right _ ?_
              exact (mem_outFlat x _).mpr ⟨dn, hsurv (Or.inr htn) hxi hdn hxdn, hxdn⟩
          · exact absurd (by simpa using h1) hxo
        · exact List.mem_append_left _ (List.mem_append_right _ (by simp))
      · rw [hshapeF.1, hif.1, outFlat_append, outFlat_map_subst]
        have hl : (bb.inputs ++ [bb.fresh]) ++
            (outFlat (done.filter (fun q =>
              !(((getOnnxConstParentsToRemove bb node).map Node.id).contains q.id))) ++
             outFlat todo2) =
            bb.inputs ++ bb.fresh ::
            (outFlat (done.filter (fun q =>
              !(((getOnnxConstParentsToRemove bb node).map Node.id).contains q.id))) ++
             outFlat todo2) := by
          simp
        rw [hl, List.nodup_middle, List.nodup_cons]
        constructor
        · intro hc
          rcases List.mem_append.mp hc with h1 | h1
          · have := hvbi bb.fresh h1; omega
          · rcases List.mem_append.mp h1 with h2 | h2
            · obtain ⟨dn, hdn, hxdn⟩ := (mem_outFlat _ _).mp h2
              have hdnb : dn ∈ bb.nodes := by
                rw [hsplit]
                exact List.mem_append_left _ (List.mem_of_mem_filter hdn)
              have := (hvbn dn hdnb).2 bb.fresh hxdn; omega
            · obtain ⟨tn, htn, hxtn⟩ := (mem_outFlat _ _).mp h2
              have htnb : tn ∈ bb.nodes := by
                rw [hsplit]
                exact List.mem_append_right _ (by simp [htn])
              have := (hvbn tn htnb).2 bb.fresh hxtn; omega
        · have hsub : (bb.inputs ++
              (outFlat (done.filter (fun q =>
                !(((getOnnxConstParentsToRemove bb node).map Node.id).contains q.id))) ++
               outFlat todo2)).Sublist (bb.inputs ++ outFlat bb.nodes) := by
            rw [hsplit, outFlat_append,
              show outFlat (node :: todo2) = node.outputs ++ outFlat todo2 from rfl, hout]
            refine List.Sublist.append (List.Sublist.refl _) ?_
            refine List.Sublist.append (outFlat_sublist (List.filter_sublist _)) ?_
            exact List.sublist_cons_self out0 (outFlat todo2)
          exact List.Nodup.sublist hsub hnd
      · rw [hif.1, hifr]
        intro x hx
        rcases List.mem_append.mp hx with h1 | h1
        · have := hvbi x h1; omega
        · have : x = bb.fresh := by simpa using h1
          omega
      · rw [hshapeF.1, hifr]
        intro n hn
        rcases List.mem_append.mp hn with h1 | h1
        · have hnb : n ∈ bb.nodes := by
            rw [hsplit]
            exact List.mem_append_left _ (List.mem_of_mem_filter h1)
          exact ⟨fun x hx => by have := (hvbn n hnb).1 x hx; omega,
            fun x hx => by have := (hvbn n hnb).2 x hx; omega⟩
        · obtain ⟨tn, htn, hte⟩ := List.mem_map.mp h1
          have htnb : tn ∈ bb.nodes := by
            rw [hsplit]
            exact List.mem_append_right _ (by simp [htn])
          constructor
          · intro x hx
            rw [← hte] at hx
            unfold substInput at hx
            simp only [] at hx
            obtain ⟨w, hw, hwe⟩ := List.mem_map.mp hx
            by_cases hwo : w = out0
            · rw [hwo, if_pos rfl] at hwe
              omega
            · rw [if_neg hwo] at hwe
              have := (hvbn tn htnb).1 w hw
              omega
          · intro x hx
            rw [← hte] at hx
            have := (hvbn tn htnb).2 x hx
            omega
      · rw [hshapeF.1, List.map_append, ids_map_subst]
        have hsub : ((done.filter (fun q =>
              !(((getOnnxConstParentsToRemove bb node).map Node.id).contains q.id))).map
                Node.id ++ todo2.map Node.id).Sublist (bb.nodes.map Node.id) := by
          rw [hsplit, List.map_append, List.map_cons]
          refine List.Sublist.append (List.Sublist.map _ (List.filter_sublist _)) ?_
          exact List.sublist_cons_self node.id (todo2.map Node.id)
        exact List.Nodup.sublist hsub hids
      · rw [hshapeF.1]
        intro n hn hk
        rcases List.mem_append.mp hn with h1 | h1
        · refine hconst1 n ?_ hk
          rw [hsplit]
          exact List.mem_append_left _ (List.mem_of_mem_filter h1)
        · obtain ⟨tn, htn, hte⟩ := List.mem_map.mp h1
          have htnb : tn ∈ bb.nodes := by
            rw [hsplit]
            exact List.mem_append_right _ (by simp [htn])
          have hkind : tn.kind = NodeKind.onnxConstant := by rw [← hte] at hk; exact hk
          have : tn.outputs.length ≤ 1 := hconst1 tn htnb hkind
          rw [← hte]
          exact this
      · rw [hif.2.2]
        exact mapInsert_sorted mm bb.fresh (bb.fresh, val) hsorted
      · rw [hif.2.2]
        intro p hp
        rcases mem_mapInsert mm bb.fresh (bb.fresh, val) p hp with h1 | h1
        · exact hshape p h1
        · rw [h1]
      · rw [hif.2.2, hif.1]
        intro p hp
        rcases mem_mapInsert mm bb.fresh (bb.fresh, val) p hp with h1 | h1
        · exact List.mem_append_left _ (hkeys p h1)
        · rw [h1]
          exact List.mem_append_right _ (by simp)

theorem blockWF_elim {b : Block} (h : blockWF b = true) :
    TopoOK b.inputs b.nodes ∧
    (b.inputs ++ outFlat b.nodes).Nodup ∧
    (∀ x ∈ b.inputs, x < b.fresh) ∧
    (∀ n ∈ b.nodes, (∀ x ∈ n.inputs, x < b.fresh) ∧ ∀ x ∈ n.outputs, x < b.fresh) ∧
    (b.nodes.map Node.id).Nodup ∧
    (∀ n ∈ b.nodes, n.kind = NodeKind.onnxConstant → n.outputs.length ≤ 1) := by
  unfold blockWF at h
  simp only [Bool.and_eq_true] at h
  obtain ⟨⟨⟨⟨⟨⟨h1, h2⟩, h3⟩, h4⟩, h5⟩, h6⟩, h7⟩ := h
  refine ⟨(topoCheck_iff _ _).mp h1, (nodupBool_iff _).mp h2, ?_, ?_,
    (nodupBool_iff _).mp h6, ?_⟩
  · intro x hx
    have := List.all_eq_true.mp h3 x hx
    simpa using this
  · intro n hn
    have := List.all_eq_true.mp h5 n hn
    rw [Bool.and_eq_true] at this
    constructor
    · intro x hx
      have h8 := List.all_eq_true.mp this.1 x hx
      simpa using h8
    · intro x hx
      have h8 := List.all_eq_true.mp this.2 x hx
      simpa using h8
  · intro n hn hk
    have := List.all_eq_true.mp h7 n hn
    rw [Bool.or_eq_true] at this
    rcases this with h8 | h8
    · simp [hk] at h8
    · simpa using h8

theorem buildMap_sorted (d : ParamMap) : ∀ (l : List Nat) (acc : ValueToParamPairMap),
    mapSorted acc →
    mapSorted (l.foldl (fun m input =>
      match mapFind? d input with
      | some t => mapInsert m input (input, t)
      | none => m) acc) := by
  intro l
  induction l with
  | nil => intro acc h; exact h
  | cons a rest ih =>
    intro acc h
    simp only [List.foldl_cons]
    cases e : mapFind? d a with
    | none => exact ih acc h
    | some t => exact ih _ (mapInsert_sorted acc a (a, t) h)

theorem buildMap_keys (d : ParamMap) (S : List Nat) :
    ∀ (l : List Nat) (acc : ValueToParamPairMap),
    (∀ p ∈ acc, p.1 ∈ S) → (∀ k ∈ l, k ∈ S) →
    ∀ p ∈ l.foldl (fun m input =>
      match mapFind? d input with
      | some t => mapInsert m input (input, t)
      | none => m) acc, p.1 ∈ S := by
  intro l
  induction l with
  | nil => intro acc hacc _; exact hacc
  | cons a rest ih =>
    intro acc hacc hl
    simp only [List.foldl_cons]
    cases e : mapFind? d a with
    | none => exact ih acc hacc (fun k hk => hl k (by simp [hk]))
    | some t =>
      refine ih _ ?_ (fun k hk => hl k (by simp [hk]))
      intro p hp
      rcases mem_mapInsert acc a (a, t) p hp with h1 | h1
      · exact hacc p h1
      · rw [h1]; exact hl a (by simp)

theorem buildMap_find (d : ParamMap) : ∀ (l : List Nat) (acc : ValueToParamPairMap)
    (k : Nat), mapSorted acc →
    mapFind? (l.foldl (fun m input =>
      match mapFind? d input with
      | some t => mapInsert m input (input, t)
      | none => m) acc) k =
    match mapFind? acc k with
    | some w => some w
    | none => if k ∈ l then (mapFind? d k).map (fun t => (k, t)) else none := by
  intro l
  induction l with
  | nil =>
    intro acc k _
    simp only [List.foldl_nil, if_neg (List.not_mem_nil k)]
    cases mapFind? acc k <;> rfl
  | cons a rest ih =>
    intro acc k hs
    simp only [List.foldl_cons]
    cases e : mapFind? d a with
    | none =>
      rw [ih acc k hs]
      cases e2 : mapFind? acc k with
      | some w => rfl
      | none =>
        by_cases hk : k = a
        · subst hk
          by_cases hm : k ∈ rest
          · simp [hm, e]
          · simp [hm, e]
        · simp [List.mem_cons, hk]
    | some t =>
      rw [ih _ k (mapInsert_sorted acc a (a, t) hs),
        mapFind?_insert acc a (a, t) k hs]
      cases e2 : mapFind? acc k with
      | some w => rfl
      | none =>
        by_cases hk : k = a
        · subst hk
          simp [e]
        · simp [List.mem_cons, hk]

theorem mapFind?_eq_some_mem {α : Type} : ∀ (m : List (Nat × α)) (k : Nat) (w : α),
    mapFind? m k = some w → (k, w) ∈ m := by
  intro m
  induction m with
  | nil => intro k w h; exact absurd h (by simp [mapFind?])
  | cons p rest ih =>
    intro k w h
    obtain ⟨k0, v0⟩ := p
    unfold mapFind? at h
    by_cases hk : k = k0
    · rw [if_pos hk] at h
      rw [hk, Option.some.inj h]
      simp
    · rw [if_neg hk] at h
      exact List.mem_cons_of_mem _ (ih k w h)

theorem mapFind?_map_val {α β : Type} (g : α → β) :
    ∀ (m : List (Nat × α)) (k : Nat),
    mapFind? (m.map (fun p => (p.1, g p.2))) k = (mapFind? m k).map g := by
  intro m
  induction m with
  | nil => intro k; rfl
  | cons p rest ih =>
    intro k
    obtain ⟨k0, v0⟩ := p
    unfold mapFind?
    by_cases hk : k = k0
    · simp [hk]
    · simp only [List.map_cons, if_neg hk]
      exact ih k

theorem mapInsert_append_gt {α : Type} : ∀ (dd : List (Nat × α)) (k : Nat) (v : α),
    (∀ p ∈ dd, p.1 < k) → mapInsert dd k v = dd ++ [(k, v)] := by
  intro dd
  induction dd with
  | nil => intro k v _; rfl
  | cons p rest ih =>
    intro k v h
    obtain ⟨k0, v0⟩ := p
    have hk0 : k0 < k := h (k0, v0) (by simp)
    unfold mapInsert
    rw [if_neg (by omega), if_neg (by omega)]
    rw [ih k v (fun q hq => h q (by simp [hq]))]
    rfl

theorem buildParams_eq_aux : ∀ (m : ValueToParamPairMap) (acc : ParamMap),
    mapSorted m → (∀ p ∈ m, p.2.1 = p.1) → (∀ p ∈ m, ∀ q ∈ acc, q.1 < p.1) →
    m.foldl (fun dd p => mapInsert dd p.2.1 p.2.2) acc =
      acc ++ m.map (fun p => (p.1, p.2.2)) := by
  intro m
  induction m with
  | nil => intro acc _ _ _; simp
  | cons p rest ih =>
    intro acc hs hshape hlt
    obtain ⟨k0, w⟩ := p
    have hw : w.1 = k0 := hshape (k0, w) (by simp)
    simp only [List.foldl_cons]
    rw [hw]
    rw [mapInsert_append_gt acc k0 w.2 (fun q hq => hlt (k0, w) (by simp) q hq)]
    rw [mapSorted_cons] at hs
    rw [ih (acc ++ [(k0, w.2)]) hs.2 (fun q hq => hshape q (by simp [hq])) ?_]
    · simp
    · intro p2 hp2 q hq
      rcases List.mem_append.mp hq with h1 | h1
      · exact hlt p2 (by simp [hp2]) q h1
      · have : q = (k0, w.2) := by simpa using h1
        rw [this]
        exact hs.1 p2 hp2

theorem mapFind?_filter {α : Type} (q : Nat × α → Bool) :
    ∀ (m : List (Nat × α)) (k : Nat), mapSorted m →
    mapFind? (m.filter q) k =
      match mapFind? m k with
      | some w => if q (k, w) then some w else none
      | none => none := by
  intro m
  induction m with
  | nil => intro k _; rfl
  | cons p rest ih =>
    intro k hs
    obtain ⟨k0, v0⟩ := p
    rw [mapSorted_cons] at hs
    by_cases hq : q (k0, v0)
    · rw [List.filter_cons_of_pos hq]
      by_cases hk : k = k0
      · subst hk
        simp [mapFind?, hq]
      · show mapFind? ((k0, v0) :: rest.filter q) k = _
        unfold mapFind?
        rw [if_neg hk, if_neg hk, ih k hs.2]
    · rw [List.filter_cons_of_neg (by simpa using hq)]
      by_cases hk : k = k0
      · subst hk
        have hnone : mapFind? rest k = none :=
          mapFind?_none_of_lt rest k (fun p2 hp2 => hs.1 p2 hp2)
        rw [ih k hs.2, hnone]
        simp [mapFind?, hq]
      · rw [ih k hs.2]
        unfold mapFind?
        rw [if_neg hk]
        cases rest <;> rfl

theorem hasUses_erase (b2 : Block) (x : Nat) :
    (eraseUnusedBlockInputs b2).hasUses x = b2.hasUses x := by
  unfold Block.hasUses
  have : (eraseUnusedBlockInputs b2).useCount x = b2.useCount x := by
    unfold eraseUnusedBlockInputs
    exact useCount_fields b2.nodes _ _ _ _ _ x
  rw [this]

theorem eraseUnusedBlockInputs_nodes (b2 : Block) :
    (eraseUnusedBlockInputs b2).nodes = b2.nodes := rfl

/-- The loop invariant holds at entry on a well-formed block with the
freshly built value-to-parameter association. -/
theorem LoopInv_init (v : Int) (b : Block) (d : ParamMap)
    (hwf : blockWF b = true) :
    LoopInv v b (buildValueToParamsMap b d) (b.nodes.map Node.id) := by
  obtain ⟨h1, h2, h3, h5, h6, h7⟩ := blockWF_elim hwf
  refine ⟨[], b.nodes, by simp, rfl, by simp, by simp, ?_, h2, h3, h5, h6, h7, ?_, ?_, ?_⟩
  · have he : b.inputs ++ outFlat ([] : List Node) = b.inputs := by
      simp [outFlat]
    rw [he]
    exact h1
  · exact buildMap_sorted d b.inputs [] trivial
  · exact buildMap_shape d b.inputs [] (by simp)
  · exact buildMap_keys d b.inputs b.inputs [] (by simp) (fun k hk => hk)

theorem LoopInv_foldLoop {v : Int} : ∀ (ids : List Nat) (bb : Block)
    (mm : ValueToParamPairMap) (tr : List Nat)
    (res : Block × ValueToParamPairMap × List Nat),
    foldLoop v ids bb mm tr = .ok res → LoopInv v bb mm ids →
    LoopInv v res.1 res.2.1 [] := by
  intro ids
  induction ids with
  | nil =>
    intro bb mm tr res h hinv
    have : res = (bb, mm, tr) := (Except.ok.inj h).symm
    rw [this]
    exact hinv
  | cons nid rest ih =>
    intro bb mm tr res h hinv
    unfold foldLoop at h
    cases e : processNode v bb mm tr nid with
    | error e2 => rw [e] at h; exact absurd h (by simp)
    | ok r2 =>
      rw [e] at h
      have hstep := LoopInv_step hinv e
      exact ih r2.1 r2.2.1 r2.2.2 res h hstep

/-- Dropping unused block inputs and unused association entries preserves
constant-ness and resolution of every value some node still consumes. -/
theorem lookup_preserved_prune {b2 : Block} {m2 : ValueToParamPairMap}
    (hsorted : mapSorted m2)
    {n : Node} {x : Nat} (hn : n ∈ b2.nodes) (hx : x ∈ n.inputs) :
    isConstant (eraseUnusedBlockInputs b2) x (eraseUnusedValuesFromMap b2 m2) =
      isConstant b2 x m2 ∧
    resolveInput (eraseUnusedBlockInputs b2) (eraseUnusedValuesFromMap b2 m2) x =
      resolveInput b2 m2 x := by
  have huse : b2.hasUses x = true := by
    have := useCount_pos_of_use hn hx
    unfold Block.hasUses
    simp
    omega
  have hmapf : mapFind? (eraseUnusedValuesFromMap b2 m2) x = mapFind? m2 x := by
    unfold eraseUnusedValuesFromMap
    rw [mapFind?_filter _ m2 x hsorted]
    cases e : mapFind? m2 x with
    | none => rfl
    | some w => simp [huse]
  by_cases hxin : x ∈ b2.inputs
  · have hxin1 : x ∈ (eraseUnusedBlockInputs b2).inputs := by
      unfold eraseUnusedBlockInputs
      exact List.mem_filter.mpr ⟨hxin, huse⟩
    have hprodB : b2.producer? x = some b2.paramNodeOf := by
      unfold Block.producer?
      rw [if_pos hxin]
    have hprodF : (eraseUnusedBlockInputs b2).producer? x =
        some (eraseUnusedBlockInputs b2).paramNodeOf := by
      unfold Block.producer?
      rw [if_pos hxin1]
    constructor
    · unfold isConstant
      rw [hprodB, hprodF]
      simp [Block.paramNodeOf, Node.mustBeNone, Node.kindOf?, Node.findAttr?, hmapf]
    · unfold resolveInput
      rw [hprodB, hprodF]
      show (match mapFind? (eraseUnusedValuesFromMap b2 m2) x with
        | some p => Except.ok p.2
        | none =>
          Except.error "getValues: Input value not found amongst constant parameters.") = _
      rw [hmapf]
      rfl
  · have hxin1 : x ∉ (eraseUnusedBlockInputs b2).inputs := by
      intro hc
      exact hxin (List.mem_of_mem_filter hc)
    have hprodB : b2.producer? x = b2.nodes.find? (fun c => decide (x ∈ c.outputs)) := by
      unfold Block.producer?
      rw [if_neg hxin]
    have hprodF : (eraseUnusedBlockInputs b2).producer? x =
        b2.nodes.find? (fun c => decide (x ∈ c.outputs)) := by
      unfold Block.producer?
      rw [if_neg hxin1]
      rfl
    cases e : b2.nodes.find? (fun c => decide (x ∈ c.outputs)) with
    | none =>
      constructor
      · unfold isConstant
        rw [hprodB, hprodF, e]
      · unfold resolveInput
        rw [hprodB, hprodF, e]
    | some dn =>
      constructor
      · unfold isConstant
        rw [hprodB, hprodF, e, hmapf]
      · simp only [resolveInput, hprodB, hprodF, e, hmapf]

/-- Claim C4: running the pass twice in succession on the same block and
parameter map with the same opset version produces no further change the
second time: on a well-formed block (the IR invariants: topological order,
unique value producers, fresh-counter bounds, unique node ids, single-output
constants), a successful first run reaches a fixed point of the pass. -/
theorem constantFoldONNX_idempotent (b b1 : Block) (d d1 : ParamMap) (v : Int)
    (hwf : blockWF b = true)
    (h1 : ConstantFoldONNX b d v = .ok (b1, d1)) :
    ConstantFoldONNX b1 d1 v = .ok (b1, d1) := by
  unfold ConstantFoldONNX at h1
  by_cases hv : v ≠ 9 ∧ v ≠ 10
  · rw [if_pos hv] at h1
    unfold ConstantFoldONNX
    rw [if_pos hv]
  · rw [if_neg hv] at h1
    simp only [] at h1
    cases e : foldLoop v (b.nodes.map (fun n => n.id)) b (buildValueToParamsMap b d) []
      with
    | error e2 => rw [e] at h1; exact absurd h1 (by simp)
    | ok res =>
      obtain ⟨b2, m2, tr2⟩ := res
      rw [e] at h1
      simp only [] at h1
      have hb1 : eraseUnusedBlockInputs b2 = b1 := congrArg Prod.fst (Except.ok.inj h1)
      have hd1 : buildParamsMapFromValueToParamsMap (eraseUnusedValuesFromMap b2 m2) =
          d1 := congrArg Prod.snd (Except.ok.inj h1)
      have hinv := LoopInv_foldLoop (b.nodes.map (fun n => n.id)) b
        (buildValueToParamsMap b d) [] (b2, m2, tr2) e (LoopInv_init v b d hwf)
      obtain ⟨done, todo2, hsplit2, hrids0, hstab, hdoneIn, htopo, hnd, hvbi, hvbn,
        hids, hconst1, hsorted, hshape, hkeys⟩ := hinv
      have htodo0 : todo2 = [] := List.map_eq_nil_iff.mp hrids0.symm
      have hsplit3 : b2.nodes = done := by rw [hsplit2, htodo0, List.append_nil]
      have hnodes1 : b1.nodes = b2.nodes := by rw [← hb1]; rfl
      have hstab1 : ∀ n ∈ b1.nodes, StableSkip v b1 (eraseUnusedValuesFromMap b2 m2)
          n := by
        intro n hn
        have hn2 : n ∈ b2.nodes := by rw [← hnodes1]; exact hn
        have hns : n ∈ done := by rw [← hsplit3]; exact hn2
        refine StableSkip_transfer ?_ (hstab n hns)
        intro x hx
        rw [← hb1]
        exact lookup_preserved_prune hsorted hn2 hx
      have hm3sorted : mapSorted (eraseUnusedValuesFromMap b2 m2) :=
        mapSorted_filter _ m2 hsorted
      have hm3shape : ∀ p ∈ eraseUnusedValuesFromMap b2 m2, p.2.1 = p.1 :=
        fun p hp => hshape p (List.mem_of_mem_filter hp)
      have hbuildd1 : buildParamsMapFromValueToParamsMap (eraseUnusedValuesFromMap b2 m2)
          = (eraseUnusedValuesFromMap b2 m2).map (fun p => (p.1, p.2.2)) := by
        unfold buildParamsMapFromValueToParamsMap
        have := buildParams_eq_aux (eraseUnusedValuesFromMap b2 m2) [] hm3sorted
          hm3shape (by simp)
        simpa using this
      have hfindd1 : ∀ k, mapFind? d1 k =
          (mapFind? (eraseUnusedValuesFromMap b2 m2) k).map (fun w => w.2) := by
        intro k
        rw [← hd1, hbuildd1]
        exact mapFind?_map_val (fun w => w.2) (eraseUnusedValuesFromMap b2 m2) k
      have hkeym3 : ∀ p ∈ eraseUnusedValuesFromMap b2 m2, p.1 ∈ b1.inputs := by
        intro p hp
        have hp2 : p ∈ m2 := List.mem_of_mem_filter hp
        have huse : b2.hasUses p.1 = true := by simpa using List.of_mem_filter hp
        rw [← hb1]
        exact List.mem_filter.mpr ⟨hkeys p hp2, huse⟩
      have hmeq : buildValueToParamsMap b1 d1 = eraseUnusedValuesFromMap b2 m2 := by
        refine mapExt _ _ ?_ hm3sorted ?_
        · unfold buildValueToParamsMap
          exact buildMap_sorted d1 b1.inputs [] trivial
        · intro k
          unfold buildValueToParamsMap
          rw [buildMap_find d1 b1.inputs [] k trivial]
          show (if k ∈ b1.inputs then (mapFind? d1 k).map (fun t => (k, t)) else none) = _
          rw [hfindd1 k]
          cases e2 : mapFind? (eraseUnusedValuesFromMap b2 m2) k with
          | none =>
            by_cases hk : k ∈ b1.inputs <;> simp [hk]
          | some w =>
            have hmem := mapFind?_eq_some_mem _ k w e2
            have hw1 : w.1 = k := hm3shape (k, w) hmem
            have hk : k ∈ b1.inputs := hkeym3 (k, w) hmem
            simp only [if_pos hk, Option.map_some']
            rw [← hw1]
      have hm4 : eraseUnusedValuesFromMap b1 (eraseUnusedValuesFromMap b2 m2) =
          eraseUnusedValuesFromMap b2 m2 := by
        unfold eraseUnusedValuesFromMap
        refine List.filter_eq_self.mpr ?_
        intro p hp
        have huse : b2.hasUses p.1 = true := by simpa using List.of_mem_filter hp
        rw [← hb1, hasUses_erase]
        exact huse
      have hb5 : eraseUnusedBlockInputs b1 = b1 := by
        unfold eraseUnusedBlockInputs
        have hfe : b1.inputs.filter (fun x => b1.hasUses x) = b1.inputs := by
          refine List.filter_eq_self.mpr ?_
          intro x hx
          have hx2 : x ∈ (eraseUnusedBlockInputs b2).inputs := by rw [hb1]; exact hx
          have huse : b2.hasUses x = true := by
            have := List.of_mem_filter hx2
            simpa using this
          rw [← hb1, hasUses_erase]
          exact huse
        rw [hfe]
      unfold ConstantFoldONNX
      rw [if_neg hv]
      simp only []
      rw [hmeq, foldLoop_stable hstab1 (b1.nodes.map (fun n => n.id)) []]
      simp only []
      rw [hm4, hb5, hd1]

def fixFoldedBlock : Block := { inputs := [3], nodes := [], retInputs := [3], fresh := 4 }

/-- C4 witness: the opset-9 Slice fixture folds in one pass to a parameter
block, and a second run of the pass on the result changes nothing. -/
theorem constantFoldONNX_idempotent_witness :
    blockWF fixSliceBlock = true ∧
    ConstantFoldONNX fixSliceBlock [(1, fixT46)] 9 =
      .ok (fixFoldedBlock, [(3, fixT44)]) ∧
    ConstantFoldONNX fixFoldedBlock [(3, fixT44)] 9 =
      .ok (fixFoldedBlock, [(3, fixT44)]) :=
  ⟨by decide, by rfl, constantFoldONNX_idempotent fixSliceBlock fixFoldedBlock
    [(1, fixT46)] [(3, fixT44)] 9 (by decide) (by rfl)⟩
